import Mathlib

/-!
Verification of the knip core: the gitignore-to-picomatch pattern
normalizer, the ignore-file line pipeline, the glob front end
(src/packages/knip/src/util/glob-core.ts) and the dependency graph with
its union-only merge primitives
(src/packages/knip/src/util/dependency-graph.ts).

Modelling conventions:
* JS strings are Lean `String`; character-level work happens on `String.data`
  (a `List Char`).
* JS `Set<string>` is modelled by content as `Finset String` (the code only
  ever adds elements; insertion order is not part of any claim, which all
  speak of content equality).
* JS `Map` is modelled as an association list `List (key × value)` whose
  operations mirror the source's has/get/set calls literally; content
  equality is lookup equality.
* JS objects that are mutated through shared references (the `ImportDetails`
  records stored into the graph) live in an explicit heap (`Heap`), and a
  `Ref` (a `Nat` index) stands for an object reference, so that the aliasing
  behaviour of the source is captured faithfully.
* Collaborators outside this core (the fast-glob engine, the filesystem
  walk of findAndParseGitignores, the picomatch matcher, the path helpers)
  are taken as explicit function parameters, so that theorems can quantify
  over them ("never invoked" facts become invariance in the collaborator).
-/

/-! ## Kernel-reducible equality instances

The derived equality deciders of core compose component proofs with
`Eq.rec`, which blocks kernel reduction when a component (such as a
`Finset`) is equal but not structurally equal. The instances below decide
the same equalities through `decidable_of_iff`, which the kernel can
evaluate; they are used by the closed `decide` evaluations. -/

instance decEqPairF {α β : Type} [DecidableEq α] [DecidableEq β] :
    DecidableEq (α × β) := fun a b =>
  decidable_of_iff (a.1 = b.1 ∧ a.2 = b.2) Prod.ext_iff.symm

instance decEqOptionF {α : Type} [DecidableEq α] : DecidableEq (Option α) := fun a b =>
  match a, b with
  | none, none => isTrue rfl
  | some _, none => isFalse (by simp)
  | none, some _ => isFalse (by simp)
  | some x, some y => decidable_of_iff (x = y) (by simp)

instance decEqListF {α : Type} [DecidableEq α] : DecidableEq (List α) := fun a b =>
  match a, b with
  | [], [] => isTrue rfl
  | [], _ :: _ => isFalse (by simp)
  | _ :: _, [] => isFalse (by simp)
  | x :: xs, y :: ys =>
    have : Decidable (xs = ys) := decEqListF xs ys
    decidable_of_iff (x = y ∧ xs = ys) List.cons_eq_cons.symm

/-! ## Character and string helpers -/

/-- Prefix test on character lists (models `String.prototype.startsWith`). -/
def startsWithL : List Char → List Char → Bool
  | [], _ => true
  | _ :: _, [] => false
  | p :: ps, c :: cs => p = c && startsWithL ps cs

/-- Suffix test on character lists (models `String.prototype.endsWith`). -/
def endsWithL (suffixChars cs : List Char) : Bool :=
  startsWithL suffixChars.reverse cs.reverse

/-- JS whitespace test restricted to the characters relevant here. -/
def isWsChar (c : Char) : Bool :=
  c = ' ' || c = '\t' || c = '\r' || c = '\n'

/-- Models `String.prototype.trim` on character lists. -/
def trimL (cs : List Char) : List Char :=
  ((cs.dropWhile isWsChar).reverse.dropWhile isWsChar).reverse

/-- Models `String.prototype.trim`. -/
def trimS (s : String) : String := ⟨trimL s.data⟩

/-! ## convertGitignoreToPicomatchIgnorePatterns (glob-core.ts lines 31-48) -/

/-- Result shape of the normalizer: the negation flag and the two pattern
variants (base and extended). -/
structure GitPattern where
  negated : Bool
  patterns : List String
  deriving DecidableEq, Repr

/-- Translation of `convertGitignoreToPicomatchIgnorePatterns` from
glob-core.ts: strip a leading "!" (recording negation), strip a trailing
"/", strip a leading "*/**/", then either drop a leading "/" (anchored) or
prepend "**/" unless already present; the extended variant appends "/**"
unless the pattern already ends in "/*". -/
def convertGitignoreToPicomatchIgnorePatterns (pattern : String) : GitPattern :=
  let cs := pattern.data
  let negated := cs.head? = some '!'
  let cs := if negated then cs.drop 1 else cs
  let cs := if endsWithL ['/'] cs then cs.dropLast else cs
  let cs := if startsWithL ['*', '/', '*', '*', '/'] cs then cs.drop 5 else cs
  let cs :=
    if startsWithL ['/'] cs then cs.drop 1
    else if startsWithL ['*', '*', '/'] cs then cs
    else '*' :: '*' :: '/' :: cs
  let extChars := if endsWithL ['/', '*'] cs then cs else cs ++ ['/', '*', '*']
  { negated := negated, patterns := [⟨cs⟩, ⟨extChars⟩] }

/-! ## parseGitignoreFile (glob-core.ts lines 50-67) -/

/-- Models the line splitter `file.split(/\r?\n/)`: a "\r\n" pair or a lone
"\n" ends a line; a lone "\r" stays inside its line. -/
def splitLinesAux : List Char → List Char → List (List Char)
  | [], acc => [acc.reverse]
  | c :: rest, acc =>
    if c = '\n' then acc.reverse :: splitLinesAux rest []
    else if c = '\r' then
      match rest with
      | '\n' :: rest2 => acc.reverse :: splitLinesAux rest2 []
      | r => splitLinesAux r (c :: acc)
    else splitLinesAux rest (c :: acc)
termination_by cs _ => cs.length
decreasing_by all_goals (simp; try omega)

/-- Split a file's contents into lines, as `file.split(/\r?\n/)` does. -/
def splitLines (s : String) : List String :=
  (splitLinesAux s.data []).map fun cs => ⟨cs⟩

/-- Models `pattern.replace(/(?<!\\)#.*/, '')`: cut the line at the first
"#" that is not immediately preceded by a backslash. -/
def truncateComment : List Char → List Char
  | [] => []
  | c :: rest =>
    if c = '#' then []
    else if c = '\\' then
      match rest with
      | [] => [c]
      | d :: rest2 =>
        if d = '#' then c :: d :: truncateComment rest2
        else c :: truncateComment (d :: rest2)
    else c :: truncateComment rest
termination_by cs => cs.length
decreasing_by all_goals (simp; try omega)

/-- The filter of the pipeline: `line => line.trim() && !line.startsWith('#')`
keeps a line iff its trim is nonempty and it does not start with "#". -/
def keepsLine (line : String) : Bool :=
  trimL line.data ≠ [] && line.data.head? ≠ some '#'

/-- Models `pattern.match(matchFrom)` followed by
`pattern.replace(matchFrom, '$1')` for `matchFrom = new RegExp("^(!?/?)(" + from + ")")`,
treating `from` (a path offset such as "a/b/") as a literal string: the
regex engine greedily tries the optional "!" and "/" and backtracks, so the
candidate captured first groups are tried in the order "!/", "!", "/", "". -/
def stripMatchFrom (fr : String) (pattern : String) : Option String :=
  let try1 : List Char → Option String := fun g =>
    if startsWithL (g ++ fr.data) pattern.data then
      some ⟨g ++ pattern.data.drop (g.length + fr.data.length)⟩
    else none
  (try1 ['!', '/']).orElse fun _ =>
    (try1 ['!']).orElse fun _ =>
      (try1 ['/']).orElse fun _ =>
        try1 []

/-- The `flatMap` body of parseGitignoreFile: when a `from` offset is given
(the ignore file lives in an ancestor directory), rewrite or drop the
pattern; without `from` the pattern passes through unchanged. -/
def applyFrom (fr : Option String) (pattern : String) : List String :=
  match fr with
  | none => [pattern]
  | some f =>
    match stripMatchFrom f pattern with
    | some p => [p]
    | none =>
      if startsWithL ['/', '*', '*', '/'] pattern.data then [⟨pattern.data.drop 1⟩]
      else if startsWithL ['!', '/', '*', '*', '/'] pattern.data then [⟨'!' :: pattern.data.drop 2⟩]
      else if startsWithL ['/'] pattern.data || startsWithL ['!', '/'] pattern.data then []
      else [pattern]

/-- Translation of `parseGitignoreFile` from glob-core.ts, applied to the
file's contents (the `readFileSync` result): split into lines, keep lines
whose trim is nonempty and that do not start with "#", strip unescaped
inline comments and trim, apply the ancestor `from` rewriting, and
normalize every surviving pattern. -/
def parseGitignoreFile (contents : String) (fr : Option String) : List GitPattern :=
  (((((splitLines contents).filter keepsLine).map
      fun pattern => (⟨trimL (truncateComment pattern.data)⟩ : String)).flatMap
        (applyFrom fr)).map
          convertGitignoreToPicomatchIgnorePatterns)

/-- Per-line view of the `fr = none` pipeline: a kept line contributes its
single normalized pattern, a blank or full-line-comment line contributes
nothing. The theorem C7 below proves `parseGitignoreFile` equal to the
concatenation of this function over the file's lines. -/
def lineEntries (line : String) : List GitPattern :=
  if keepsLine line then
    [convertGitignoreToPicomatchIgnorePatterns ⟨trimL (truncateComment line.data)⟩]
  else []

/-- Join lines with "\n", the inverse of `splitLines` on newline-free lines. -/
def joinLines : List String → String
  | [] => ""
  | [l] => l
  | l :: ls => l ++ "\n" ++ joinLines ls

/-- A line free of line-break characters (so that joining and re-splitting
is the identity). -/
def noNL (cs : List Char) : Prop := ∀ c ∈ cs, c ≠ '\n' ∧ c ≠ '\r'

instance (cs : List Char) : Decidable (noNL cs) := by unfold noNL; infer_instance

/-! ## Glob front end (glob-core.ts lines 180-217) -/

/-- The per-directory pattern record `Gitignores` of glob-core.ts; the
`ignores` set is kept as a list in insertion order (the code only iterates
and spreads it). -/
structure Gitignores where
  ignores : List String
  unignores : List String
  deriving DecidableEq, Repr

/-- The module-level `cachedIgnores: Map<string, Gitignores>` of
glob-core.ts, keyed by directory. -/
abbrev IgnoreCache := List (String × Gitignores)

/-- Association-list lookup, modelling `Map.prototype.get`. -/
def lookupCache : IgnoreCache → String → Option Gitignores
  | [], _ => none
  | (k, v) :: rest, key => if k = key then some v else lookupCache rest key

/-- Modelled from the spec: the path helper `dirname` (util/path.ts is not
under src/); standard POSIX dirname, used by the ancestor walks. -/
def dirnameP (p : String) : String :=
  let cs := p.data.reverse.dropWhile (· = '/')
  let rest := cs.dropWhile (· ≠ '/')
  let parent := rest.dropWhile (· = '/')
  if cs = [] then (if p.data = [] then "." else "/")
  else if parent = [] then (if rest = [] then "." else "/")
  else ⟨parent.reverse⟩

/-- Modelled from the spec: the path helper `relative` (util/path.ts is not
under src/); returns `toPath` re-expressed relative to `fromPath` in the
simple prefix case, which is the only use the claims exercise. -/
def relativeP (fromPath toPath : String) : String :=
  if toPath = fromPath then ""
  else if startsWithL (fromPath.data ++ ['/']) toPath.data then
    ⟨toPath.data.drop (fromPath.data.length + 1)⟩
  else toPath

/-- The `patterns: string | string[]` argument of `globby`. -/
inductive GlobPatterns where
  | one (pattern : String)
  | many (patterns : List String)
  deriving DecidableEq, Repr

/-- The options record of `globby` (GlobOptions of glob-core.ts); `ignore`
is optional because the code guards it with `Array.isArray`. -/
structure GlobOptions where
  gitignore : Bool
  cwd : String
  dir : String
  ignore : Option (List String)
  onlyDirectories : Bool
  absolute : Bool
  dot : Bool
  deriving DecidableEq, Repr

/-- The argument record handed to the delegated engine: `globby` spreads
its options, replaces `ignore` with the computed list and removes `dir`. -/
structure FastGlobArgs where
  gitignore : Bool
  cwd : String
  ignore : List String
  onlyDirectories : Bool
  absolute : Bool
  dot : Bool
  deriving DecidableEq, Repr

/-- The `while (dir !== options.cwd)` loop of `globby`: walk from `dir` up
through its parents, collecting each directory's cached ignores followed by
its unignores re-expressed as negated patterns. The loop is driven by fuel
because the JS loop terminates only when `cwd` is reached; `globby` passes
enough fuel for every path whose ancestor chain reaches `cwd`. -/
def gatherDirIgnores (cache : IgnoreCache) (cwd : String) : Nat → String → List String
  | 0, _ => []
  | fuel + 1, dir =>
    if dir = cwd then []
    else
      (match lookupCache cache dir with
        | some i => i.ignores ++ i.unignores.map (fun e => "!" ++ e)
        | none => []) ++ gatherDirIgnores cache cwd fuel (dirnameP dir)

/-- Translation of `globby` from glob-core.ts, with the delegated fast-glob
engine passed in as `engine`. The result pairs the returned file list with
the number of engine invocations, so that "the engine is never invoked" is
part of the returned value. An empty pattern array returns `([], 0)` before
any ignore computation or engine call. -/
def globby (engine : GlobPatterns → FastGlobArgs → List String)
    (cache : IgnoreCache) (patterns : GlobPatterns) (options : GlobOptions) :
    List String × Nat :=
  match patterns with
  | .many [] => ([], 0)
  | _ =>
    let ignore :=
      if options.gitignore && options.ignore.isSome then options.ignore.getD [] else []
    let ignore :=
      if options.gitignore then
        ignore ++ gatherDirIgnores cache options.cwd (options.dir.length + 1) options.dir ++
          (match lookupCache cache options.cwd with
            | some i => i.ignores
            | none => [])
      else ignore
    (engine patterns
      { gitignore := options.gitignore, cwd := options.cwd, ignore := ignore,
        onlyDirectories := options.onlyDirectories, absolute := options.absolute,
        dot := options.dot }, 1)

/-- The options record of `getGitIgnoredHandler`. -/
structure IgnoreHandlerOptions where
  gitignore : Bool
  cwd : String
  deriving DecidableEq, Repr

/-- Translation of `getGitIgnoredHandler` from glob-core.ts. The
collaborators are parameters: `parseFind` is `_parseFindGitignores` (the
filesystem walk also rebuilds the directory cache it is given), `pmatch` is
the picomatch matcher construction from an ignore list and an unignore
list. The body first clears `cachedIgnores`, then short-circuits to a
constantly-false predicate when `options.gitignore === false`; only
otherwise does it invoke the filesystem walk. It returns the predicate
together with the cache state after the call. -/
def getGitIgnoredHandler
    (parseFind : IgnoreCache → String → Gitignores × IgnoreCache)
    (pmatch : List String → List String → String → Bool)
    (options : IgnoreHandlerOptions) (cache : IgnoreCache) :
    (String → Bool) × IgnoreCache :=
  let cache := ([] : IgnoreCache)
  if options.gitignore = false then (fun _ => false, cache)
  else
    let (g, cache) := parseFind cache options.cwd
    let matcher := pmatch g.ignores g.unignores
    (fun filePath => matcher (relativeP options.cwd filePath), cache)

/-! ## Dependency graph (dependency-graph.ts) -/

/-- Association-list lookup, modelling `Map.prototype.get` for the maps of
the dependency graph. -/
def lookupEntry {α : Type} : List (String × α) → String → Option α
  | [], _ => none
  | (k, v) :: rest, key => if k = key then some v else lookupEntry rest key

/-- Association-list update, modelling `Map.prototype.set`: replace the
value in place if the key exists, append the pair otherwise. -/
def setEntry {α : Type} : List (String × α) → String → α → List (String × α)
  | [], key, v => [(key, v)]
  | (k, w) :: rest, key, v =>
    if k = key then (k, v) :: rest else (k, w) :: setEntry rest key v

/-- Key list of an association list. -/
def keysOf {α : Type} (m : List (String × α)) : List String := m.map (·.1)

/-- The `IdToFileMap` of the graph types: identifier to set of file paths.
Values are JS Sets, modelled by content as `Finset String`. -/
abbrev IdToFileMap := List (String × Finset String)

/-- The `IdToNsToFileMap` of the graph types: identifier to alias to set of
file paths. -/
abbrev IdToNsToFileMap := List (String × IdToFileMap)

/-- Content-level form of `addValues` (dependency-graph.ts lines 88-91):
union the incoming set's content into the set at `id`, taking the content
wholesale for an unseen key. The object-level translation, `addValues`
below, additionally records that the unseen-key branch `map.set(id,
values)` adopts the caller's Set object itself (sharing it from then on);
the content produced at the mutated map is the one computed here whenever
the two records share no inner objects, which holds at every merge this
core performs — the incoming record is always the parser's freshly
allocated one. The union laws (claim C3) speak of merge content, so they
are stated against this form. -/
def addValuesContent (map : IdToFileMap) (id : String) (values : Finset String) :
    IdToFileMap :=
  match lookupEntry map id with
  | some s => setEntry map id (s ∪ values)
  | none => setEntry map id values

/-- The content of `for (const [id, v] of b.entries()) addValues(a, id, v)`,
the flat-field iteration of updateImportDetails. -/
def mergeIdMap (a b : IdToFileMap) : IdToFileMap :=
  b.foldl (fun acc p => addValuesContent acc p.1 p.2) a

/-- Content-level form of `addNsValues` (dependency-graph.ts lines 93-97):
merge the incoming inner map's content into the inner map at `id`, taking
it wholesale for an unseen key. As with addValuesContent, the object-level
translation `addNsValues` below also records the adoption of the caller's
inner Map object in the unseen-key branch. -/
def addNsValuesContent (map : IdToNsToFileMap) (id : String) (value : IdToFileMap) :
    IdToNsToFileMap :=
  match lookupEntry map id with
  | some inner => setEntry map id (mergeIdMap inner value)
  | none => setEntry map id value

/-- The content of `for (const [id, v] of b.entries()) addNsValues(a, id, v)`,
the nested-field iteration of updateImportDetails. -/
def mergeNsMap (a b : IdToNsToFileMap) : IdToNsToFileMap :=
  b.foldl (fun acc p => addNsValuesContent acc p.1 p.2) a

/-- The `ImportDetails` record: six union-only accumulator fields plus the
anonymous reference set (types/dependency-graph.ts, shape per spec section
3 and the field accesses of updateImportDetails). -/
structure ImportDetails where
  refs : Finset String
  imported : IdToFileMap
  importedAs : IdToNsToFileMap
  importedNs : IdToFileMap
  reExported : IdToFileMap
  reExportedAs : IdToNsToFileMap
  reExportedNs : IdToFileMap

instance : DecidableEq ImportDetails := fun a b =>
  decidable_of_iff
    (a.refs = b.refs ∧ a.imported = b.imported ∧ a.importedAs = b.importedAs ∧
      a.importedNs = b.importedNs ∧ a.reExported = b.reExported ∧
      a.reExportedAs = b.reExportedAs ∧ a.reExportedNs = b.reExportedNs)
    (by cases a; cases b; simp)

/-- Content-level form of `updateImportDetails` (dependency-graph.ts lines
15-23): the content the mutated first record holds after the call — per
field, every element of the second record added into the first. The
object-level translation is `updateImportDetailsH` below; this form
coincides with it at the mutated record whenever the two records share no
inner objects (true of every merge this core performs, where the second
record is the parser's fresh one), and is the subject of the union laws. -/
def updateImportDetails (importedModule importItems : ImportDetails) : ImportDetails :=
  { refs := importedModule.refs ∪ importItems.refs
    imported := mergeIdMap importedModule.imported importItems.imported
    importedAs := mergeNsMap importedModule.importedAs importItems.importedAs
    importedNs := mergeIdMap importedModule.importedNs importItems.importedNs
    reExported := mergeIdMap importedModule.reExported importItems.reExported
    reExportedAs := mergeNsMap importedModule.reExportedAs importItems.reExportedAs
    reExportedNs := mergeIdMap importedModule.reExportedNs importItems.reExportedNs }

/-- The content of a record freshly created by `createImports`
(dependency-graph.ts lines 64-72): every collection empty. -/
def createImports : ImportDetails :=
  { refs := ∅, imported := [], importedAs := [], importedNs := []
    reExported := [], reExportedAs := [], reExportedNs := [] }

/-- Modelled from the spec: the `SymbolType` tag (types/issues.ts is not
under src/); the spec only requires a kind tag with an UNKNOWN default. -/
inductive SymbolType where
  | unknown
  | known (tag : String)
  deriving DecidableEq

/-- The `Export` record, shaped after `createExport`
(dependency-graph.ts lines 51-62); member and fix payloads are opaque to
this core and modelled as strings. -/
structure Export where
  identifier : String
  pos : Nat
  line : Nat
  col : Nat
  type : SymbolType
  members : List String
  jsDocTags : Finset String
  refs : Nat × Bool
  fixes : List String
  isReExport : Bool

instance : DecidableEq Export := fun a b =>
  decidable_of_iff
    (a.identifier = b.identifier ∧ a.pos = b.pos ∧ a.line = b.line ∧ a.col = b.col ∧
      a.type = b.type ∧ a.members = b.members ∧ a.jsDocTags = b.jsDocTags ∧
      a.refs = b.refs ∧ a.fixes = b.fixes ∧ a.isReExport = b.isReExport)
    (by cases a; cases b; simp)

/-- Translation of `createExport` (dependency-graph.ts lines 51-62). -/
def createExport (identifier : String) : Export :=
  { identifier := identifier, pos := 0, line := 1, col := 1
    type := SymbolType.unknown, members := [], jsDocTags := ∅
    refs := (0, false), fixes := [], isReExport := false }

/-- A reference to a shared, mutable `ImportDetails` object: the JS code
stores the same object in several places and mutates it in place, so the
objects live in an explicit heap and nodes hold references. -/
abbrev Ref := Nat

/-- A reference to a mutable Set object — the value sets inside the maps
of an ImportDetails record. The unseen-key branch of `addValues` adopts
the caller's Set object, after which the same Set cell is shared by two
records and mutated through either. -/
abbrev SRef := Nat

/-- A reference to a mutable inner Map object — the alias-keyed inner
maps of the nested fields, likewise adopted wholesale by the unseen-key
branch of `addNsValues` and shared from then on. -/
abbrev MRef := Nat

/-- The object shape of an `ImportDetails` record in the heap: the flat
fields hold Set references, the nested fields hold inner-Map references.
The `refs` set is kept by value inside the object: it is only ever created
fresh (`createImports`, the parser) and mutated through its own record
(line 16 of dependency-graph.ts); no code path adopts another record's
`refs` object, so it is never shared. -/
structure ImportDetailsObj where
  refs : Finset String
  imported : List (String × SRef)
  importedAs : List (String × MRef)
  importedNs : List (String × SRef)
  reExported : List (String × SRef)
  reExportedAs : List (String × MRef)
  reExportedNs : List (String × SRef)

instance : DecidableEq ImportDetailsObj := fun a b =>
  decidable_of_iff
    (a.refs = b.refs ∧ a.imported = b.imported ∧ a.importedAs = b.importedAs ∧
      a.importedNs = b.importedNs ∧ a.reExported = b.reExported ∧
      a.reExportedAs = b.reExportedAs ∧ a.reExportedNs = b.reExportedNs)
    (by cases a; cases b; simp)

/-- The object a fresh out-of-range dereference yields; the modelled
programs never produce one. -/
def createImportsObj : ImportDetailsObj :=
  { refs := ∅, imported := [], importedAs := [], importedNs := []
    reExported := [], reExportedAs := [], reExportedNs := [] }

/-- The heap: `details` holds the ImportDetails objects (indexed by
`Ref`), `innerMaps` the shared inner Map objects (indexed by `MRef`) and
`sets` the shared Set objects (indexed by `SRef`). -/
structure Heap where
  details : List ImportDetailsObj
  innerMaps : List (List (String × SRef))
  sets : List (Finset String)

instance : DecidableEq Heap := fun a b =>
  decidable_of_iff
    (a.details = b.details ∧ a.innerMaps = b.innerMaps ∧ a.sets = b.sets)
    (by cases a; cases b; simp)

/-- Dereference an ImportDetails object. -/
def Heap.getD (h : Heap) (r : Ref) : ImportDetailsObj :=
  (h.details.get? r).getD createImportsObj

/-- Mutate an ImportDetails object in place. -/
def Heap.setD (h : Heap) (r : Ref) (d : ImportDetailsObj) : Heap :=
  { h with details := h.details.set r d }

/-- Dereference an inner Map object. -/
def Heap.getM (h : Heap) (m : MRef) : List (String × SRef) :=
  (h.innerMaps.get? m).getD []

/-- Mutate an inner Map object in place. -/
def Heap.setM (h : Heap) (m : MRef) (v : List (String × SRef)) : Heap :=
  { h with innerMaps := h.innerMaps.set m v }

/-- Dereference a Set object. -/
def Heap.getS (h : Heap) (s : SRef) : Finset String :=
  (h.sets.get? s).getD ∅

/-- Mutate a Set object in place. -/
def Heap.setS (h : Heap) (s : SRef) (v : Finset String) : Heap :=
  { h with sets := h.sets.set s v }

/-- Translation of `addValues` (dependency-graph.ts lines 88-91) at the
object level. When the map already has the key, `for (const v of values)
map.get(id)?.add(v)` mutates the existing Set object: its cell becomes the
union of both cells' contents. When the key is unseen, `map.set(id,
values)` adopts the incoming Set reference itself — from then on that cell
is shared between the caller's record and this map. The map (a list of
Set references) is threaded by value and written back to its home — an
ImportDetails field or an inner-Map cell — by the caller, which is where
the in-place JS mutation of the Map object lands. -/
def addValues (st : Heap) (map : List (String × SRef)) (id : String) (values : SRef) :
    Heap × List (String × SRef) :=
  match lookupEntry map id with
  | some s => (st.setS s (st.getS s ∪ st.getS values), map)
  | none => (st, setEntry map id values)

/-- The seen-key loop of `addNsValues`: `for (const [ns, v] of value)
addValues(map.get(id), ns, v)` folds a list of entries into the inner-Map
cell `inner` — each step re-reads that cell, runs `addValues` on it and
writes it back, which both mutates shared Set cells and adopts incoming
Set references into the shared inner-Map cell. -/
def innerFold (inner : MRef) (st : Heap) (entries : List (String × SRef)) : Heap :=
  entries.foldl
    (fun st2 p =>
      let r := addValues st2 (st2.getM inner) p.1 p.2
      r.1.setM inner r.2) st

/-- Translation of `addNsValues` (dependency-graph.ts lines 93-97) at the
object level. When the outer map has the key, the incoming inner Map's
entries (read at entry to the loop; the loop never mutates the source cell
itself — the records merged by this core are distinct objects) are folded
into the existing inner-Map cell by `innerFold`. When the key is unseen,
`map.set(id, value)` adopts the incoming inner-Map reference wholesale. -/
def addNsValues (st : Heap) (map : List (String × MRef)) (id : String) (value : MRef) :
    Heap × List (String × MRef) :=
  match lookupEntry map id with
  | some inner => (innerFold inner st (st.getM value), map)
  | none => (st, setEntry map id value)

/-- One flat-field loop of `updateImportDetails`: `for (const [id, v] of
src.field) addValues(tgt.field, id, v)` — the target field map is threaded
alongside the heap because `addValues` may grow the Map object. -/
def foldFlat (acc : Heap × List (String × SRef)) (src : List (String × SRef)) :
    Heap × List (String × SRef) :=
  src.foldl (fun acc p => addValues acc.1 acc.2 p.1 p.2) acc

/-- One nested-field loop of `updateImportDetails`: `for (const [id, v] of
src.field) addNsValues(tgt.field, id, v)`. -/
def foldNs (acc : Heap × List (String × MRef)) (src : List (String × MRef)) :
    Heap × List (String × MRef) :=
  src.foldl (fun acc p => addNsValues acc.1 acc.2 p.1 p.2) acc

/-- Translation of `updateImportDetails` (dependency-graph.ts lines 15-23)
at the object level: fold each field of the second record into the
corresponding field of the first, through the heap, in source order. The
second record is read at entry (the code iterates its collections; this
core never merges a record into itself, so the source object is not
mutated during the call), and the mutated first record is written back at
the end — its field maps are owned by it alone, so the deferred write-back
is observationally the in-place JS mutation. -/
def updateImportDetailsH (st : Heap) (importedModule importItems : Ref) : Heap :=
  let src := st.getD importItems
  let tgt := st.getD importedModule
  let refs := tgt.refs ∪ src.refs
  let a1 := foldFlat (st, tgt.imported) src.imported
  let a2 := foldNs (a1.1, tgt.importedAs) src.importedAs
  let a3 := foldFlat (a2.1, tgt.importedNs) src.importedNs
  let a4 := foldFlat (a3.1, tgt.reExported) src.reExported
  let a5 := foldNs (a4.1, tgt.reExportedAs) src.reExportedAs
  let a6 := foldFlat (a5.1, tgt.reExportedNs) src.reExportedNs
  a6.1.setD importedModule
    { refs := refs, imported := a1.2, importedAs := a2.2, importedNs := a3.2
      reExported := a4.2, reExportedAs := a5.2, reExportedNs := a6.2 }

/-- The `imports` sub-record of a file node; `internal` maps a target file
path to a reference to a shared ImportDetails object. -/
structure FileImports where
  internal : List (String × Ref)
  external : Finset String
  unresolved : Finset String

instance : DecidableEq FileImports := fun a b =>
  decidable_of_iff
    (a.internal = b.internal ∧ a.external = b.external ∧ a.unresolved = b.unresolved)
    (by cases a; cases b; simp)

/-- The `FileNode` record (types/dependency-graph.ts, shape per spec
section 3 and the field accesses of the source): `imported` is optional
because `createFileNode` does not set it. -/
structure FileNode where
  imports : FileImports
  exports : List (String × Export)
  imported : Option Ref
  duplicates : Finset String
  scripts : Finset String
  traceRefs : Finset String

instance : DecidableEq FileNode := fun a b =>
  decidable_of_iff
    (a.imports = b.imports ∧ a.exports = b.exports ∧ a.imported = b.imported ∧
      a.duplicates = b.duplicates ∧ a.scripts = b.scripts ∧ a.traceRefs = b.traceRefs)
    (by cases a; cases b; simp)

/-- Translation of `createFileNode` (dependency-graph.ts lines 39-49). -/
def createFileNode : FileNode :=
  { imports := { internal := [], external := ∅, unresolved := ∅ }
    exports := [], imported := none, duplicates := ∅, scripts := ∅, traceRefs := ∅ }

/-- The `DependencyGraph`: file path to node. -/
abbrev Graph := List (String × FileNode)

/-- Translation of `getOrCreateFileNode` (dependency-graph.ts lines 12-13):
`graph.get(filePath) ?? createFileNode()`. The graph is returned alongside
the node to make the function's effect on it explicit: the body contains no
`graph.set`, so the returned graph is the argument unchanged. -/
def getOrCreateFileNode (graph : Graph) (filePath : String) : FileNode × Graph :=
  ((lookupEntry graph filePath).getD createFileNode, graph)

/-- The per-file import map produced by the external parser: target file
path to a reference to a freshly allocated ImportDetails object. -/
abbrev ImportMap := List (String × Ref)

/-- One iteration of the `for (const [importedFilePath, importDetails] of
the importMap entries)` loop of `updateImportMap` (dependency-graph.ts lines
26-36). When the source node has no internal entry for the target yet, the
incoming reference itself is stored via the internal set call for the
path; likewise a target node without an `imported` aggregate
adopts the incoming reference (`importedFile.imported = importDetails`) —
this sharing of one object between two homes is the aliasing the
order-independence and frame claims are tested against. An existing entry
or aggregate is merged in place through the heap. -/
def updateImportMapStep (acc : FileNode × Graph × Heap) (entry : String × Ref) :
    FileNode × Graph × Heap :=
  let file := acc.1
  let graph := acc.2.1
  let heap := acc.2.2
  let importedFilePath := entry.1
  let importDetails := entry.2
  let (file, heap) :=
    match lookupEntry file.imports.internal importedFilePath with
    | none =>
      ({ file with imports :=
          { file.imports with
            internal := setEntry file.imports.internal importedFilePath importDetails } },
        heap)
    | some r =>
      (file, updateImportDetailsH heap r importDetails)
  let (importedFile, graph) := getOrCreateFileNode graph importedFilePath
  let (importedFile, heap) :=
    match importedFile.imported with
    | none => ({ importedFile with imported := some importDetails }, heap)
    | some r =>
      (importedFile, updateImportDetailsH heap r importDetails)
  (file, setEntry graph importedFilePath importedFile, heap)

/-- Translation of `updateImportMap` (dependency-graph.ts lines 25-37):
fold the loop body over the import map's entries. -/
def updateImportMap (file : FileNode) (importMap : ImportMap) (graph : Graph)
    (heap : Heap) : FileNode × Graph × Heap :=
  importMap.foldl updateImportMapStep (file, graph, heap)

/-- Modelled from the spec: the per-file analysis driver (spec section 2
data flow; the caller of updateImportMap is not under src/) — fetch or
create the source file's node, fold the parser's import map into the state
via updateImportMap, and register the updated source node. -/
def analyzeFile (st : Graph × Heap) (filePath : String) (importMap : ImportMap) :
    Graph × Heap :=
  let (file, graph) := getOrCreateFileNode st.1 filePath
  let (file, graph, heap) := updateImportMap file importMap graph st.2
  (setEntry graph filePath file, heap)

/-- Analyze a list of files in the given order. -/
def runAnalysis (st : Graph × Heap) (files : List (String × ImportMap)) :
    Graph × Heap :=
  files.foldl (fun st f => analyzeFile st f.1 f.2) st

/-- Content of a flat map: dereference every Set cell. -/
def readIdMap (st : Heap) (m : List (String × SRef)) : IdToFileMap :=
  m.map fun p => (p.1, st.getS p.2)

/-- Content of a nested map: dereference every inner-Map cell and, inside
it, every Set cell. -/
def readNsMap (st : Heap) (m : List (String × MRef)) : IdToNsToFileMap :=
  m.map fun p => (p.1, readIdMap st (st.getM p.2))

/-- Content of an ImportDetails object: the pure record its cells denote. -/
def readDetails (st : Heap) (r : Ref) : ImportDetails :=
  { refs := (st.getD r).refs
    imported := readIdMap st (st.getD r).imported
    importedAs := readNsMap st (st.getD r).importedAs
    importedNs := readIdMap st (st.getD r).importedNs
    reExported := readIdMap st (st.getD r).reExported
    reExportedAs := readNsMap st (st.getD r).reExportedAs
    reExportedNs := readIdMap st (st.getD r).reExportedNs }

/-- Observable content of a node's `imports.internal` entry for a target:
the referenced ImportDetails object, dereferenced through the heap. -/
def internalDetails (st : Graph × Heap) (filePath target : String) :
    Option ImportDetails :=
  (lookupEntry st.1 filePath).bind fun n =>
    (lookupEntry n.imports.internal target).map fun r => readDetails st.2 r

/-- Observable content of a node's `imported` aggregate. -/
def importedDetails (st : Graph × Heap) (filePath : String) : Option ImportDetails :=
  (lookupEntry st.1 filePath).bind fun n => n.imported.map fun r => readDetails st.2 r

/-! ## Content equality and wellformedness for the merge laws -/

/-- Union of optional sets, the content of one merged map lookup: both
present unions, one present keeps it, an unseen key is adopted wholesale. -/
def olup : Option (Finset String) → Option (Finset String) → Option (Finset String)
  | some s, some t => some (s ∪ t)
  | some s, none => some s
  | none, o => o

/-- Union of optional inner maps for the nested alias-keyed maps. -/
def olupNs : Option IdToFileMap → Option IdToFileMap → Option IdToFileMap
  | some a, some b => some (mergeIdMap a b)
  | some a, none => some a
  | none, o => o

/-- Content equality of flat maps: equal lookups at every key. -/
def eqvId (a b : IdToFileMap) : Prop := ∀ k, lookupEntry a k = lookupEntry b k

/-- Content equality of optional inner maps. -/
def eqvNsO : Option IdToFileMap → Option IdToFileMap → Prop
  | some a, some b => eqvId a b
  | none, none => True
  | some _, none => False
  | none, some _ => False

/-- Content equality of nested maps: content-equal inner maps at every key. -/
def eqvNs (a b : IdToNsToFileMap) : Prop := ∀ k, eqvNsO (lookupEntry a k) (lookupEntry b k)

/-- Content equality of ImportDetails records, fieldwise. -/
def eqvDetails (a b : ImportDetails) : Prop :=
  a.refs = b.refs ∧ eqvId a.imported b.imported ∧ eqvNs a.importedAs b.importedAs ∧
    eqvId a.importedNs b.importedNs ∧ eqvId a.reExported b.reExported ∧
    eqvNs a.reExportedAs b.reExportedAs ∧ eqvId a.reExportedNs b.reExportedNs

/-- Wellformedness of a nested map: no duplicate keys at either level (JS
Maps cannot hold duplicate keys). -/
def WfNs (m : IdToNsToFileMap) : Prop :=
  (keysOf m).Nodup ∧ ∀ p ∈ m, (keysOf p.2).Nodup

/-- Wellformedness of an ImportDetails record: no duplicate keys in any of
its maps. -/
def WfDetails (d : ImportDetails) : Prop :=
  (keysOf d.imported).Nodup ∧ WfNs d.importedAs ∧ (keysOf d.importedNs).Nodup ∧
    (keysOf d.reExported).Nodup ∧ WfNs d.reExportedAs ∧ (keysOf d.reExportedNs).Nodup

instance : DecidablePred WfNs := fun m => by unfold WfNs; infer_instance

instance (d : ImportDetails) : Decidable (WfDetails d) := by unfold WfDetails; infer_instance

/-! ## Concrete scenario: files A and B each import identifier x from C -/

/-- The parser's facts for file A: it imports identifier "x" from C. -/
def detailsA : ImportDetails :=
  { refs := ∅, imported := [("x", {"A"})], importedAs := [], importedNs := []
    reExported := [], reExportedAs := [], reExportedNs := [] }

/-- The parser's facts for file B: it also imports identifier "x" from C. -/
def detailsB : ImportDetails :=
  { refs := ∅, imported := [("x", {"B"})], importedAs := [], importedNs := []
    reExported := [], reExportedAs := [], reExportedNs := [] }

/-- The union of both files' facts about "x". -/
def detailsAB : ImportDetails :=
  { refs := ∅, imported := [("x", {"A", "B"})], importedAs := [], importedNs := []
    reExported := [], reExportedAs := [], reExportedNs := [] }

/-- A's record as a heap object: its `imported` map holds Set reference 0. -/
def detailsObjA : ImportDetailsObj :=
  { refs := ∅, imported := [("x", 0)], importedAs := [], importedNs := []
    reExported := [], reExportedAs := [], reExportedNs := [] }

/-- B's record as a heap object: its `imported` map holds Set reference 1. -/
def detailsObjB : ImportDetailsObj :=
  { refs := ∅, imported := [("x", 1)], importedAs := [], importedNs := []
    reExported := [], reExportedAs := [], reExportedNs := [] }

/-- The initial heap: the parser allocated one ImportDetails object per
file (reference 0 is A's record, denoting `detailsA`; reference 1 is B's,
denoting `detailsB`), each owning one fresh Set object. -/
def scenarioHeap : Heap :=
  { details := [detailsObjA, detailsObjB], innerMaps := [], sets := [{"A"}, {"B"}] }

/-- File A's import map: target "C" with A's freshly allocated record. -/
def mapA : ImportMap := [("C", 0)]

/-- File B's import map: target "C" with B's freshly allocated record. -/
def mapB : ImportMap := [("C", 1)]

/-- Analysis order A, B, C. -/
def orderABC : List (String × ImportMap) := [("A", mapA), ("B", mapB), ("C", [])]

/-- Analysis order B, A, C. -/
def orderBAC : List (String × ImportMap) := [("B", mapB), ("A", mapA), ("C", [])]

/-- State after analyzing file A alone: A's node is registered with an
internal entry for "C" that shares reference 0 with C's `imported`
aggregate. -/
def stateAfterA : Graph × Heap := runAnalysis ([], scenarioHeap) [("A", mapA)]

/-- The raw result of then running `updateImportMap` for file B (source
node fresh, import map `mapB`): used by the frame counterexample. -/
def stateAfterB : FileNode × Graph × Heap :=
  updateImportMap createFileNode mapB stateAfterA.1 stateAfterA.2

/-- A concrete `_parseFindGitignores` collaborator for witnesses: returns
one pattern set and records one directory in the cache it is given. -/
def parseFindSample : IgnoreCache → String → Gitignores × IgnoreCache :=
  fun cache _ => (⟨["**/dist"], []⟩, ("d", ⟨["**/dist"], []⟩) :: cache)

/-- A concrete picomatch collaborator for witnesses: matches everything. -/
def pmatchSample : List String → List String → String → Bool := fun _ _ _ => true

/-- A concrete nonempty ignore cache for witnesses: patterns a previous
session left behind. -/
def cacheSample : IgnoreCache := [("/r/sub", ⟨["**/node_modules"], ["keep"]⟩)]

/-- A third parser record used by the union-law witness: it carries an
anonymous ref, a plain import and an aliased import. -/
def detailsC : ImportDetails :=
  { refs := {"r"}, imported := [("y", {"C"})], importedAs := [("x", [("xAlias", {"C"})])]
    importedNs := [], reExported := [], reExportedAs := [], reExportedNs := [] }

/-- Every field of a node except the `imported` aggregate: the parts of a
target node that `updateImportMap` never touches. -/
def nodeShape (n : FileNode) :
    FileImports × List (String × Export) × Finset String × Finset String × Finset String :=
  (n.imports, n.exports, n.duplicates, n.scripts, n.traceRefs)

/-- The references a call `updateImportMap file importMap graph` can write
through: the references carried by the import map itself, the references
stored in the source node's internal entries, and the references stored as
some graph node's `imported` aggregate. Heap cells outside this set are
untouched (theorem C9_frame). -/
def touchedRefs (file : FileNode) (importMap : ImportMap) (graph : Graph) (r : Ref) :
    Prop :=
  r ∈ importMap.map (·.2) ∨ r ∈ file.imports.internal.map (·.2) ∨
    ∃ q ∈ graph, q.2.imported = some r

instance (file : FileNode) (importMap : ImportMap) (graph : Graph) (r : Ref) :
    Decidable (touchedRefs file importMap graph r) := by
  unfold touchedRefs
  infer_instance

/-- The root references of a call, as a list: importMap's references, the
source node's internal references, the graph nodes' `imported` references.
Membership here is exactly `touchedRefs`. -/
def rootList (file : FileNode) (importMap : ImportMap) (graph : Graph) : List Ref :=
  importMap.map (·.2) ++ file.imports.internal.map (·.2) ++
    graph.filterMap fun q => q.2.imported

/-- The Set references held directly by an object's four flat maps. -/
def objSRefs (o : ImportDetailsObj) : List SRef :=
  (o.imported ++ o.importedNs ++ o.reExported ++ o.reExportedNs).map (·.2)

/-- The inner-Map references held by an object's two nested maps. -/
def objMRefs (o : ImportDetailsObj) : List MRef :=
  (o.importedAs ++ o.reExportedAs).map (·.2)

/-- The inner-Map cells a call can write: those reachable from a root
record. Adoption can have made such a cell shared with records outside the
roots, which is why reachability — not ownership — bounds the writes. -/
def touchedMRefs (heap : Heap) (file : FileNode) (importMap : ImportMap)
    (graph : Graph) (m : MRef) : Prop :=
  ∃ d ∈ rootList file importMap graph, m ∈ objMRefs (heap.getD d)

/-- The Set cells a call can write: those reachable from a root record,
directly through a flat map or through one of its inner-Map cells. -/
def touchedSRefs (heap : Heap) (file : FileNode) (importMap : ImportMap)
    (graph : Graph) (s : SRef) : Prop :=
  ∃ d ∈ rootList file importMap graph,
    s ∈ objSRefs (heap.getD d) ∨
      ∃ m ∈ objMRefs (heap.getD d), s ∈ (heap.getM m).map (·.2)

instance (heap : Heap) (file : FileNode) (importMap : ImportMap) (graph : Graph)
    (m : MRef) : Decidable (touchedMRefs heap file importMap graph m) := by
  unfold touchedMRefs
  infer_instance

instance (heap : Heap) (file : FileNode) (importMap : ImportMap) (graph : Graph)
    (s : SRef) : Decidable (touchedSRefs heap file importMap graph s) := by
  unfold touchedSRefs
  infer_instance

/-- Every reference held by an object lies in the given reference sets:
the invariant the frame proof carries for the root records. -/
def objInBounds (MS : MRef → Prop) (SS : SRef → Prop) (o : ImportDetailsObj) : Prop :=
  (∀ p ∈ o.imported, SS p.2) ∧ (∀ p ∈ o.importedAs, MS p.2) ∧
    (∀ p ∈ o.importedNs, SS p.2) ∧ (∀ p ∈ o.reExported, SS p.2) ∧
    (∀ p ∈ o.reExportedAs, MS p.2) ∧ (∀ p ∈ o.reExportedNs, SS p.2)

/-! # Theorems -/

/-- C4, counterexample. The claim states that normalizing the ignore
pattern "build/" produces the pattern pair ("build", "build/**"). It does
not: the code strips the trailing slash and then, because the remainder is
not anchored with a leading "/", prefixes "**/", producing
("**/build", "**/build/**"). -/
theorem C4_counterexample :
    convertGitignoreToPicomatchIgnorePatterns "build/" ≠
      { negated := false, patterns := ["build", "build/**"] } := by decide

/-- C4, amended. Normalizing "build/" produces the pair
("**/build", "**/build/**"): the trailing "/" is stripped and the implicit
"**/" prefix is added because the pattern is unanchored. Normalizing
"/root.txt" produces ("root.txt", "root.txt/**"): the leading "/" anchors
the pattern, the slash is dropped, and no implicit "**/" prefix is added. -/
theorem C4_trailing_slash_and_anchoring :
    convertGitignoreToPicomatchIgnorePatterns "build/" =
        { negated := false, patterns := ["**/build", "**/build/**"] } ∧
      convertGitignoreToPicomatchIgnorePatterns "/root.txt" =
        { negated := false, patterns := ["root.txt", "root.txt/**"] } :=
  ⟨rfl, rfl⟩

/-- C5. Normalizing "*.log" produces the non-negated pair
("**/*.log", "**/*.log/**"), and normalizing "!keep.log" produces the pair
("**/keep.log", "**/keep.log/**") flagged as negated: an unanchored pattern
is prefixed with "**/" and, since it does not end with "/*", the extended
variant appends "/**". -/
theorem C5_depth_recursive_normalization :
    convertGitignoreToPicomatchIgnorePatterns "*.log" =
        { negated := false, patterns := ["**/*.log", "**/*.log/**"] } ∧
      convertGitignoreToPicomatchIgnorePatterns "!keep.log" =
        { negated := true, patterns := ["**/keep.log", "**/keep.log/**"] } :=
  ⟨rfl, rfl⟩

/-- C1, evaluation at the failing input. Files A and B both import
identifier "x" from C (A's parser record maps "x" to importer set with "A",
B's maps "x" to importer set with "B"; C imports nothing). Processing
the import maps in order A, B, C leaves A's imports.internal entry for C with
the merged content for both files, while order B, A, C leaves it with A's
content only: `updateImportMap` stores the same ImportDetails object as A's
internal entry and as C's `imported` aggregate, so B's later merge into C's
aggregate also mutates A's entry. The final graphs therefore differ between
the two orders, refuting order independence. -/
theorem C1_order_dependence :
    internalDetails (runAnalysis ([], scenarioHeap) orderABC) "A" "C" = some detailsAB ∧
      internalDetails (runAnalysis ([], scenarioHeap) orderBAC) "A" "C" = some detailsA ∧
      detailsAB ≠ detailsA :=
  ⟨by decide, by decide, by decide⟩

/-- C9, counterexample. After analyzing file A alone, running
`updateImportMap` for file B (whose import map has the single key "C")
changes the observable content of node A's imports.internal entry for "C",
although "A" is not a key of B's import map and node A is neither the
source nor a target of the call: the shared ImportDetails object behind A's
entry is mutated through C's `imported` aggregate. This refutes the claimed
frame property as stated. -/
theorem C9_counterexample :
    "A" ∉ keysOf mapB ∧
      internalDetails (stateAfterB.2.1, stateAfterB.2.2) "A" "C" ≠
        internalDetails stateAfterA "A" "C" :=
  ⟨by decide, by decide⟩

/-- C2, counterexample. The claim states that `getOrCreateFileNode(graph,
p)` registers a fresh node when `p` is absent. It does not: its body is
`graph.get(filePath) ?? createFileNode()`, which never writes to the graph.
At the empty graph and path "a" the call returns a fresh empty node while
the graph still has no entry for "a". -/
theorem C2_counterexample :
    (getOrCreateFileNode [] "a").1 = createFileNode ∧
      lookupEntry (getOrCreateFileNode [] "a").2 "a" = none :=
  ⟨rfl, rfl⟩

/-- C2, amended. `getOrCreateFileNode(graph, p)` never modifies the graph;
it returns the existing node when `p` is present and a fresh empty node
(`createFileNode()`) when it is absent, and repeated calls with the same
`p` return equal results. Registration of the node is performed by the
caller (`updateImportMap` ends each iteration with `graph.set`). -/
theorem C2_get_or_create (graph : Graph) (filePath : String) :
    (getOrCreateFileNode graph filePath).2 = graph ∧
      (∀ n, lookupEntry graph filePath = some n →
        (getOrCreateFileNode graph filePath).1 = n) ∧
      (lookupEntry graph filePath = none →
        (getOrCreateFileNode graph filePath).1 = createFileNode) ∧
      (getOrCreateFileNode (getOrCreateFileNode graph filePath).2 filePath).1 =
        (getOrCreateFileNode graph filePath).1 := by
  refine ⟨rfl, fun n h => ?_, fun h => ?_, rfl⟩
  · simp [getOrCreateFileNode, h]
  · simp [getOrCreateFileNode, h]

/-- C2, witness for the amended theorem: at the concrete graph holding one
node for "a", the call returns that node; at the empty graph and path "b"
it returns the fresh empty node. -/
theorem C2_get_or_create_witness :
    lookupEntry [("a", createFileNode)] "a" = some createFileNode ∧
      (getOrCreateFileNode [("a", createFileNode)] "a").1 = createFileNode ∧
      lookupEntry ([] : Graph) "b" = none ∧
      (getOrCreateFileNode [] "b").1 = createFileNode :=
  ⟨by decide, (C2_get_or_create [("a", createFileNode)] "a").2.1 createFileNode (by decide),
    by decide, (C2_get_or_create [] "b").2.2.1 (by decide)⟩

/-- C8. Calling `globby` with an empty include-pattern array returns the
empty result with zero invocations of the delegated glob engine, for every
options value, every engine and every cached ignore state (in particular no
ignore collection or filesystem work happens: the result does not depend on
the engine or the cache). -/
theorem C8_empty_input (engine : GlobPatterns → FastGlobArgs → List String)
    (cache : IgnoreCache) (options : GlobOptions) :
    globby engine cache (GlobPatterns.many []) options = ([], 0) := rfl

/-- C10. Every call to `getGitIgnoredHandler` first clears the
directory-keyed ignore cache: the result never depends on the incoming
cache, and the filesystem walk (when taken) starts from the empty cache.
When `options.gitignore` is false the returned predicate is constantly
false, the cache stays empty, and the filesystem walk is never invoked (the
result does not depend on the `parseFind` collaborator). -/
theorem C10_disabled_ignore
    (parseFind parseFind' : IgnoreCache → String → Gitignores × IgnoreCache)
    (pmatch : List String → List String → String → Bool)
    (options : IgnoreHandlerOptions) (cache cache' : IgnoreCache) :
    getGitIgnoredHandler parseFind pmatch options cache =
        getGitIgnoredHandler parseFind pmatch options cache' ∧
      (options.gitignore = false →
        (∀ p, (getGitIgnoredHandler parseFind pmatch options cache).1 p = false) ∧
          (getGitIgnoredHandler parseFind pmatch options cache).2 = [] ∧
          getGitIgnoredHandler parseFind pmatch options cache =
            getGitIgnoredHandler parseFind' pmatch options cache) ∧
      (options.gitignore = true →
        (getGitIgnoredHandler parseFind pmatch options cache).2 =
          (parseFind [] options.cwd).2) := by
  refine ⟨rfl, fun h => ?_, fun h => ?_⟩
  · simp [getGitIgnoredHandler, h]
  · simp [getGitIgnoredHandler, h]

/-- C10, witness: with gitignore disabled, a nonempty previous-session
cache, and concrete collaborators, the returned predicate rejects a sample
path and the cache comes back empty; with gitignore enabled the cache is
exactly what the walk builds from the cleared cache. -/
theorem C10_disabled_ignore_witness :
    (getGitIgnoredHandler parseFindSample pmatchSample ⟨false, "/r"⟩ cacheSample).1 "/r/x"
        = false ∧
      (getGitIgnoredHandler parseFindSample pmatchSample ⟨false, "/r"⟩ cacheSample).2 = [] ∧
      (getGitIgnoredHandler parseFindSample pmatchSample ⟨true, "/r"⟩ cacheSample).2 =
        (parseFindSample [] "/r").2 :=
  ⟨((C10_disabled_ignore parseFindSample parseFindSample pmatchSample ⟨false, "/r"⟩
      cacheSample cacheSample).2.1 rfl).1 "/r/x",
    ((C10_disabled_ignore parseFindSample parseFindSample pmatchSample ⟨false, "/r"⟩
      cacheSample cacheSample).2.1 rfl).2.1,
    (C10_disabled_ignore parseFindSample parseFindSample pmatchSample ⟨true, "/r"⟩
      cacheSample cacheSample).2.2 rfl⟩

/-- Lookup after set: the set key now maps to the new value, every other
key is untouched. -/
theorem lookupEntry_setEntry {α : Type} (m : List (String × α)) (k : String) (v : α)
    (k' : String) :
    lookupEntry (setEntry m k v) k' = if k = k' then some v else lookupEntry m k' := by
  induction m with
  | nil => simp only [setEntry, lookupEntry]
  | cons p rest ih =>
    obtain ⟨a, w⟩ := p
    by_cases hak : a = k <;> by_cases hkk : k = k' <;> by_cases hak' : a = k' <;>
      simp_all [setEntry, lookupEntry]

/-- A lookup succeeds exactly for the keys of the association list. -/
theorem lookupEntry_isSome_iff {α : Type} (m : List (String × α)) (k : String) :
    (lookupEntry m k).isSome ↔ k ∈ keysOf m := by
  induction m with
  | nil => simp [lookupEntry, keysOf]
  | cons p rest ih =>
    obtain ⟨a, w⟩ := p
    by_cases h : a = k
    · subst h
      simp [lookupEntry, keysOf]
    · simp only [lookupEntry, if_neg h, keysOf, List.map_cons, List.mem_cons]
      rw [ih]
      constructor
      · exact fun hk => Or.inr hk
      · rintro (hk | hk)
        · exact absurd hk.symm h
        · exact hk

/-- Each loop iteration of updateImportMap ends with `graph.set` for its
target, so a path is present afterwards iff it is that target or was
present before. -/
theorem updateImportMapStep_graph_isSome (acc : FileNode × Graph × Heap)
    (e : String × Ref) (p : String) :
    (lookupEntry (updateImportMapStep acc e).2.1 p).isSome =
      (e.1 = p || (lookupEntry acc.2.1 p).isSome) := by
  obtain ⟨file, graph, heap⟩ := acc
  obtain ⟨ifp, r⟩ := e
  simp only [updateImportMapStep, getOrCreateFileNode]
  cases h1 : lookupEntry file.imports.internal ifp <;>
    cases h2 : ((lookupEntry graph ifp).getD createFileNode).imported <;>
      by_cases hp : ifp = p <;>
        simp [h1, h2, hp, lookupEntry_setEntry]

/-- Folding the loop over an import map registers every key and loses no
previously present path. -/
theorem updateImportMap_registers (im : ImportMap) (acc : FileNode × Graph × Heap)
    (p : String) (h : p ∈ keysOf im ∨ (lookupEntry acc.2.1 p).isSome) :
    (lookupEntry (im.foldl updateImportMapStep acc).2.1 p).isSome := by
  induction im generalizing acc with
  | nil =>
    rcases h with h | h
    · simp [keysOf] at h
    · simpa using h
  | cons e rest ih =>
    simp only [List.foldl_cons]
    apply ih
    rcases h with h | h
    · simp only [keysOf, List.map_cons, List.mem_cons] at h
      rcases h with h | h
      · right
        rw [updateImportMapStep_graph_isSome]
        simp [h]
      · left
        exact h
    · right
      rw [updateImportMapStep_graph_isSome]
      simp [h]

/-- C6. After `updateImportMap(file, importMap, graph)` runs, the graph
contains a node for every target path that is a key of the import map,
even when that target was never analyzed: a node missing at merge time is
synthesized by `getOrCreateFileNode` and registered by `graph.set`, not
treated as an error. -/
theorem C6_target_registration (file : FileNode) (importMap : ImportMap) (graph : Graph)
    (heap : Heap) (t : String) (ht : t ∈ keysOf importMap) :
    (lookupEntry (updateImportMap file importMap graph heap).2.1 t).isSome :=
  updateImportMap_registers importMap (file, graph, heap) t (Or.inl ht)

/-- C6, witness: file B's import map references target "C", which is not
present in the empty graph; after the call the graph has a node for "C". -/
theorem C6_target_registration_witness :
    "C" ∈ keysOf mapB ∧
      (lookupEntry (updateImportMap createFileNode mapB [] scenarioHeap).2.1 "C").isSome :=
  ⟨by decide, C6_target_registration createFileNode mapB [] scenarioHeap "C" (by decide)⟩


/-- Step equation of the splitter: a "\n" ends the current line. -/
theorem splitLinesAux_cons_nl (tail acc : List Char) :
    splitLinesAux ('\n' :: tail) acc = acc.reverse :: splitLinesAux tail [] := by
  cases tail with
  | nil => simp [splitLinesAux]
  | cons d tail2 =>
    by_cases hd : d = '\n'
    · subst hd
      simp [splitLinesAux]
    · simp [splitLinesAux, hd]

/-- Step equation of the splitter: any character other than a line break
accumulates into the current line. -/
theorem splitLinesAux_cons_other (c : Char) (tail acc : List Char) (h1 : c ≠ '\n')
    (h2 : c ≠ '\r') :
    splitLinesAux (c :: tail) acc = splitLinesAux tail (c :: acc) := by
  cases tail with
  | nil => simp [splitLinesAux, h1, h2]
  | cons d tail2 =>
    by_cases hd : d = '\n'
    · subst hd
      simp [splitLinesAux, h1, h2]
    · simp [splitLinesAux, h1, h2, hd]

/-- A chunk with no line break accumulates into the current line. -/
theorem splitLinesAux_noNL (cs : List Char) (acc : List Char) (h : noNL cs) :
    splitLinesAux cs acc = [acc.reverse ++ cs] := by
  induction cs generalizing acc with
  | nil => simp [splitLinesAux]
  | cons c rest ih =>
    have hc : c ≠ '\n' ∧ c ≠ '\r' := h c (by simp)
    have hrest : noNL rest := fun d hd => h d (by simp [hd])
    rw [splitLinesAux_cons_other c rest acc hc.1 hc.2, ih (c :: acc) hrest]
    simp

/-- A "\n" after a break-free chunk ends the current line. -/
theorem splitLinesAux_newline (cs rest acc : List Char) (h : noNL cs) :
    splitLinesAux (cs ++ '\n' :: rest) acc =
      (acc.reverse ++ cs) :: splitLinesAux rest [] := by
  induction cs generalizing acc with
  | nil => simp [splitLinesAux_cons_nl]
  | cons c cs' ih =>
    have hc : c ≠ '\n' ∧ c ≠ '\r' := h c (by simp)
    have hcs' : noNL cs' := fun d hd => h d (by simp [hd])
    rw [List.cons_append, splitLinesAux_cons_other c _ acc hc.1 hc.2, ih (c :: acc) hcs']
    simp

/-- Splitting the "\n"-joined lines recovers them, provided no line
contains a line break. -/
theorem splitLines_joinLines (ls : List String) (hne : ls ≠ [])
    (h : ∀ l ∈ ls, noNL l.data) : splitLines (joinLines ls) = ls := by
  induction ls with
  | nil => exact absurd rfl hne
  | cons l rest ih =>
    cases rest with
    | nil =>
      show (splitLinesAux l.data []).map (fun cs => (⟨cs⟩ : String)) = [l]
      rw [splitLinesAux_noNL l.data [] (h l (by simp))]
      simp
    | cons l2 rest2 =>
      have hdata : (joinLines (l :: l2 :: rest2)).data =
          l.data ++ '\n' :: (joinLines (l2 :: rest2)).data := by
        show (l ++ "\n" ++ joinLines (l2 :: rest2)).data = _
        rw [String.data_append, String.data_append]
        have hnl : ("\n" : String).data = ['\n'] := rfl
        rw [hnl]
        simp
      show (splitLinesAux (joinLines (l :: l2 :: rest2)).data []).map
          (fun cs => (⟨cs⟩ : String)) = _
      rw [hdata, splitLinesAux_newline _ _ [] (h l (by simp))]
      have ihr := ih (by simp) (fun x hx => h x (by simp [hx]))
      simp only [List.map_cons, List.reverse_nil, List.nil_append]
      exact congrArg₂ List.cons rfl ihr

/-- Step equation of truncation: a leading "#" truncates everything. -/
theorem truncateComment_cons_hash (rest : List Char) :
    truncateComment ('#' :: rest) = [] := by
  cases rest with
  | nil => simp [truncateComment]
  | cons d rest2 => simp [truncateComment]

/-- Step equation of truncation: an ordinary character is kept. -/
theorem truncateComment_cons_plain (c : Char) (tail : List Char) (h1 : c ≠ '#')
    (h2 : c ≠ '\\') :
    truncateComment (c :: tail) = c :: truncateComment tail := by
  cases tail with
  | nil => simp [truncateComment, h1, h2]
  | cons d tail2 => simp [truncateComment, h1, h2]

/-- Step equation of truncation: a backslash before a non-"#" character is
kept and the scan continues with that character. -/
theorem truncateComment_cons_bs (b : Char) (tail : List Char) (hb : b ≠ '#') :
    truncateComment ('\\' :: b :: tail) = '\\' :: truncateComment (b :: tail) := by
  have hx : ('\\' : Char) ≠ '#' := by decide
  simp [truncateComment, hx, hb]

/-- Truncation cuts a line at its first unescaped "#": a prefix that
contains no "#" and does not end in a backslash is returned unchanged. -/
theorem truncateComment_append (pre post : List Char) (hnh : '#' ∉ pre)
    (hlast : pre.getLast? ≠ some '\\') :
    truncateComment (pre ++ '#' :: post) = pre := by
  induction pre with
  | nil => simpa using truncateComment_cons_hash post
  | cons a pre' ih =>
    have ha : a ≠ '#' := fun hq => hnh (by simp [hq])
    have hnh' : '#' ∉ pre' := fun hq => hnh (List.mem_cons_of_mem _ hq)
    have hlast' : pre'.getLast? ≠ some '\\' := by
      cases pre' with
      | nil => simp
      | cons b pre'' =>
        rw [List.getLast?_cons_cons] at hlast
        exact hlast
    by_cases hab : a = '\\'
    · subst hab
      cases pre' with
      | nil => simp [List.getLast?_singleton] at hlast
      | cons b pre'' =>
        have hb : b ≠ '#' := fun hq => hnh (by simp [hq])
        rw [List.cons_append, List.cons_append, truncateComment_cons_bs b _ hb,
          ← List.cons_append, ih hnh' hlast']
    · rw [List.cons_append, truncateComment_cons_plain a _ ha hab, ih hnh' hlast']

/-- An element the predicate rejects survives dropWhile. -/
theorem mem_dropWhile_of_not {α : Type} (p : α → Bool) (l : List α) (c : α)
    (hc : c ∈ l) (hp : p c = false) : c ∈ l.dropWhile p := by
  induction l with
  | nil => simp at hc
  | cons a rest ih =>
    rw [List.dropWhile_cons]
    by_cases h : p a = true
    · rw [if_pos h]
      rcases List.mem_cons.mp hc with rfl | hc'
      · rw [hp] at h
        exact absurd h (by simp)
      · exact ih hc'
    · rw [if_neg h]
      exact hc

/-- A non-whitespace character survives trimming. -/
theorem mem_trimL_of_not_ws (cs : List Char) (c : Char) (hc : c ∈ cs)
    (hw : isWsChar c = false) : c ∈ trimL cs := by
  unfold trimL
  rw [List.mem_reverse]
  refine mem_dropWhile_of_not _ _ _ ?_ hw
  rw [List.mem_reverse]
  exact mem_dropWhile_of_not _ _ _ hc hw

/-- Splitting a literal "#" out of a string concatenation. -/
theorem data_append_hash (pre post : String) :
    (pre ++ "#" ++ post).data = pre.data ++ '#' :: post.data := by
  rw [String.data_append, String.data_append]
  have hh : ("#" : String).data = ['#'] := rfl
  rw [hh]
  simp

/-- The filter-then-map pipeline is the concatenation of the per-line
entries. -/
theorem filter_map_eq_flatMap_lineEntries (ls : List String) :
    ((ls.filter keepsLine).map fun l =>
        convertGitignoreToPicomatchIgnorePatterns ⟨trimL (truncateComment l.data)⟩) =
      ls.flatMap lineEntries := by
  induction ls with
  | nil => simp
  | cons l rest ih =>
    by_cases h : keepsLine l
    · simp [List.filter_cons, h, lineEntries, ih]
    · simp [List.filter_cons, h, lineEntries, ih]

/-- C7. Parsing an ignore file is per-line and total: the parse of a file
joined from break-free lines is the concatenation of each line's entries
(so one odd line never aborts the rest of the file); a line that is blank
(trims to empty) or is a full-line comment (starts with "#") produces no
pattern entry; and a line with an unescaped inline "#" is truncated there,
the kept prefix being trimmed and normalized as the pattern. -/
theorem C7_ignore_line_handling (ls : List String) (hne : ls ≠ [])
    (h : ∀ l ∈ ls, noNL l.data) :
    parseGitignoreFile (joinLines ls) none = ls.flatMap lineEntries ∧
      (∀ l : String, trimS l = "" ∨ l.data.head? = some '#' → lineEntries l = []) ∧
      (∀ pre post : String, pre ≠ "" → '#' ∉ pre.data →
        pre.data.getLast? ≠ some '\\' →
        lineEntries (pre ++ "#" ++ post) =
          [convertGitignoreToPicomatchIgnorePatterns (trimS pre)]) := by
  refine ⟨?_, ?_, ?_⟩
  · unfold parseGitignoreFile
    rw [splitLines_joinLines ls hne h]
    rw [show applyFrom none = (fun p : String => [p]) from rfl]
    rw [List.flatMap_singleton', List.map_map]
    rw [← filter_map_eq_flatMap_lineEntries]
    rfl
  · intro l hl
    rcases hl with hl | hl
    · have hdata : trimL l.data = [] := congrArg String.data hl
      simp [lineEntries, keepsLine, hdata]
    · simp [lineEntries, keepsLine, hl]
  · intro pre post hpre hnh hlast
    have hd : (pre ++ "#" ++ post).data = pre.data ++ '#' :: post.data :=
      data_append_hash pre post
    have htr : truncateComment (pre ++ "#" ++ post).data = pre.data := by
      rw [hd]
      exact truncateComment_append _ _ hnh hlast
    obtain ⟨a, t, hat⟩ : ∃ a t, pre.data = a :: t := by
      cases hq : pre.data with
      | nil =>
        refine absurd ?_ hpre
        have : pre = ⟨pre.data⟩ := rfl
        rw [this, hq]
      | cons a t => exact ⟨a, t, rfl⟩
    have ha : a ≠ '#' := fun hq => hnh (by rw [hat, hq]; simp)
    have hhash : ('#' : Char) ∈ (pre ++ "#" ++ post).data := by
      rw [hd]
      simp
    have h1 : trimL (pre ++ "#" ++ post).data ≠ [] :=
      List.ne_nil_of_mem (mem_trimL_of_not_ws _ '#' hhash (by decide))
    have hkeep : keepsLine (pre ++ "#" ++ post) = true := by
      rw [hd] at h1
      have h3 : pre.data ≠ [] := by
        rw [hat]
        simp
      have h2 : pre.data.head? ≠ some '#' := by
        rw [hat]
        intro hq
        exact ha (Option.some.inj hq)
      simp [keepsLine]
      exact ⟨h1, h2, h3⟩
    rw [hd] at htr
    simp [lineEntries, hkeep, htr]
    rfl

/-- C7, witness: a concrete four-line ignore file; the blank line and the
full-line comment produce no entry, the inline comment is truncated. -/
theorem C7_ignore_line_handling_witness :
    (["dist", "", "# note", "keep.log"] ≠ ([] : List String)) ∧
      (∀ l ∈ (["dist", "", "# note", "keep.log"] : List String), noNL l.data) ∧
      parseGitignoreFile (joinLines ["dist", "", "# note", "keep.log"]) none =
        (["dist", "", "# note", "keep.log"] : List String).flatMap lineEntries ∧
      lineEntries "# note" = [] ∧
      lineEntries ("src " ++ "#" ++ " tools") =
        [convertGitignoreToPicomatchIgnorePatterns (trimS "src ")] := by
  have hthm := C7_ignore_line_handling ["dist", "", "# note", "keep.log"]
    (by decide) (by decide)
  exact ⟨by decide, by decide, hthm.1, hthm.2.1 "# note" (Or.inr rfl),
    hthm.2.2 "src " " tools" (by decide) (by decide) (by decide)⟩

/-- Unfolding olup on the right none. -/
theorem olup_none_right (o : Option (Finset String)) : olup o none = o := by
  cases o <;> rfl

/-- Unfolding olupNs on the right none. -/
theorem olupNs_none_right (o : Option IdToFileMap) : olupNs o none = o := by
  cases o <;> rfl

/-- olup is commutative. -/
theorem olup_comm (o1 o2 : Option (Finset String)) : olup o1 o2 = olup o2 o1 := by
  cases o1 <;> cases o2 <;> simp [olup, Finset.union_comm]

/-- olup is associative. -/
theorem olup_assoc (o1 o2 o3 : Option (Finset String)) :
    olup (olup o1 o2) o3 = olup o1 (olup o2 o3) := by
  cases o1 <;> cases o2 <;> cases o3 <;> simp [olup, Finset.union_assoc]

/-- olup is idempotent. -/
theorem olup_idem (o : Option (Finset String)) : olup o o = o := by
  cases o <;> simp [olup]

/-- A successful lookup comes from an entry of the list. -/
theorem mem_of_lookupEntry {α : Type} (m : List (String × α)) (k : String) (v : α)
    (h : lookupEntry m k = some v) : (k, v) ∈ m := by
  induction m with
  | nil => simp [lookupEntry] at h
  | cons p rest ih =>
    obtain ⟨a, w⟩ := p
    by_cases hak : a = k
    · subst hak
      rw [lookupEntry, if_pos rfl] at h
      cases Option.some.inj h
      exact List.mem_cons_self _ _
    · rw [lookupEntry, if_neg hak] at h
      exact List.mem_cons_of_mem _ (ih h)

/-- Entries of a set result come from the original list or are the set
pair itself. -/
theorem mem_setEntry {α : Type} (m : List (String × α)) (k : String) (v : α)
    (p : String × α) (hp : p ∈ setEntry m k v) : p ∈ m ∨ p = (k, v) := by
  induction m with
  | nil =>
    simp [setEntry] at hp
    exact Or.inr hp
  | cons q rest ih =>
    obtain ⟨a, w⟩ := q
    by_cases hak : a = k
    · subst hak
      rw [setEntry, if_pos rfl] at hp
      rcases List.mem_cons.mp hp with rfl | hp'
      · exact Or.inr rfl
      · exact Or.inl (List.mem_cons_of_mem _ hp')
    · rw [setEntry, if_neg hak] at hp
      rcases List.mem_cons.mp hp with rfl | hp'
      · exact Or.inl (List.mem_cons_self _ _)
      · rcases ih hp' with h | h
        · exact Or.inl (List.mem_cons_of_mem _ h)
        · exact Or.inr h

/-- Keys after a set: unchanged when the key existed, appended otherwise. -/
theorem keysOf_setEntry {α : Type} (m : List (String × α)) (k : String) (v : α) :
    keysOf (setEntry m k v) =
      if (lookupEntry m k).isSome then keysOf m else keysOf m ++ [k] := by
  induction m with
  | nil => simp [setEntry, keysOf, lookupEntry]
  | cons p rest ih =>
    obtain ⟨a, w⟩ := p
    by_cases h : a = k
    · subst h
      simp [setEntry, keysOf, lookupEntry]
    · rw [setEntry, if_neg h, keysOf, List.map_cons, lookupEntry, if_neg h]
      show (a, w).1 :: keysOf (setEntry rest k v) = _
      rw [ih]
      by_cases hc : (lookupEntry rest k).isSome
      · rw [if_pos hc, if_pos hc]
        rfl
      · rw [if_neg hc, if_neg hc]
        rfl

/-- Lookup after addValuesContent: the touched key unions in the incoming set
(adopting it wholesale when unseen), every other key is untouched. -/
theorem lookupEntry_addValues (m : IdToFileMap) (id : String) (vs : Finset String)
    (k : String) :
    lookupEntry (addValuesContent m id vs) k =
      if id = k then olup (lookupEntry m id) (some vs) else lookupEntry m k := by
  unfold addValuesContent
  cases h : lookupEntry m id with
  | none =>
    rw [lookupEntry_setEntry]
    by_cases hk : id = k
    · rw [if_pos hk, if_pos hk]
      rfl
    · rw [if_neg hk, if_neg hk]
  | some s =>
    rw [lookupEntry_setEntry]
    by_cases hk : id = k
    · rw [if_pos hk, if_pos hk]
      rfl
    · rw [if_neg hk, if_neg hk]

/-- addValuesContent keeps the keys duplicate-free. -/
theorem nodup_keys_addValues (m : IdToFileMap) (id : String) (vs : Finset String)
    (h : (keysOf m).Nodup) : (keysOf (addValuesContent m id vs)).Nodup := by
  unfold addValuesContent
  cases hl : lookupEntry m id with
  | some s =>
    rw [keysOf_setEntry, hl]
    simpa using h
  | none =>
    rw [keysOf_setEntry, hl]
    simp only [Option.isSome_none, Bool.false_eq_true, if_false]
    have hid : id ∉ keysOf m := by
      intro hmem
      rw [← lookupEntry_isSome_iff, hl] at hmem
      simp at hmem
    simp [List.nodup_append, h, hid]

/-- Lookup through the merge of two flat maps is the union of the lookups,
provided the second map has duplicate-free keys. -/
theorem lookupEntry_mergeIdMap (a b : IdToFileMap) (hb : (keysOf b).Nodup)
    (k : String) :
    lookupEntry (mergeIdMap a b) k = olup (lookupEntry a k) (lookupEntry b k) := by
  induction b generalizing a with
  | nil =>
    show lookupEntry a k = olup (lookupEntry a k) none
    rw [olup_none_right]
  | cons p rest ih =>
    obtain ⟨id, vs⟩ := p
    rw [keysOf, List.map_cons, List.nodup_cons] at hb
    obtain ⟨hid, hrest⟩ := hb
    show lookupEntry (mergeIdMap (addValuesContent a id vs) rest) k = _
    rw [ih (addValuesContent a id vs) hrest, lookupEntry_addValues]
    by_cases hk : id = k
    · subst hk
      have hnone : lookupEntry rest id = none := by
        cases hq : lookupEntry rest id with
        | none => rfl
        | some s =>
          refine absurd ?_ hid
          show id ∈ keysOf rest
          rw [← lookupEntry_isSome_iff, hq]
          rfl
      rw [if_pos rfl, hnone, olup_none_right, lookupEntry, if_pos rfl]
    · rw [if_neg hk, lookupEntry, if_neg hk]

/-- The merge of two flat maps keeps the keys duplicate-free. -/
theorem nodup_keys_mergeIdMap (a b : IdToFileMap) (ha : (keysOf a).Nodup) :
    (keysOf (mergeIdMap a b)).Nodup := by
  induction b generalizing a with
  | nil => exact ha
  | cons p rest ih =>
    show (keysOf (mergeIdMap (addValuesContent a p.1 p.2) rest)).Nodup
    exact ih _ (nodup_keys_addValues a p.1 p.2 ha)

/-- Merging flat maps is commutative up to content. -/
theorem eqvId_mergeIdMap_comm (a b : IdToFileMap) (ha : (keysOf a).Nodup)
    (hb : (keysOf b).Nodup) : eqvId (mergeIdMap a b) (mergeIdMap b a) := fun k => by
  rw [lookupEntry_mergeIdMap a b hb k, lookupEntry_mergeIdMap b a ha k, olup_comm]

/-- Merging flat maps is associative up to content. -/
theorem eqvId_mergeIdMap_assoc (a b c : IdToFileMap) (hb : (keysOf b).Nodup)
    (hc : (keysOf c).Nodup) :
    eqvId (mergeIdMap (mergeIdMap a b) c) (mergeIdMap a (mergeIdMap b c)) := fun k => by
  rw [lookupEntry_mergeIdMap _ c hc k, lookupEntry_mergeIdMap a b hb k,
    lookupEntry_mergeIdMap a _ (nodup_keys_mergeIdMap b c hb) k,
    lookupEntry_mergeIdMap b c hc k, olup_assoc]

/-- Merging a flat map into itself changes nothing, up to content. -/
theorem eqvId_mergeIdMap_idem (a : IdToFileMap) (ha : (keysOf a).Nodup) :
    eqvId (mergeIdMap a a) a := fun k => by
  rw [lookupEntry_mergeIdMap a a ha k, olup_idem]

/-- eqvId is reflexive. -/
theorem eqvId_refl (a : IdToFileMap) : eqvId a a := fun _ => rfl

/-- Lookup after addNsValuesContent: the touched key merges in the incoming inner
map (adopting it wholesale when unseen), every other key is untouched. -/
theorem lookupEntry_addNsValues (m : IdToNsToFileMap) (id : String) (v : IdToFileMap)
    (k : String) :
    lookupEntry (addNsValuesContent m id v) k =
      if id = k then olupNs (lookupEntry m id) (some v) else lookupEntry m k := by
  unfold addNsValuesContent
  cases h : lookupEntry m id with
  | none =>
    rw [lookupEntry_setEntry]
    by_cases hk : id = k
    · rw [if_pos hk, if_pos hk]
      rfl
    · rw [if_neg hk, if_neg hk]
  | some inner =>
    rw [lookupEntry_setEntry]
    by_cases hk : id = k
    · rw [if_pos hk, if_pos hk]
      rfl
    · rw [if_neg hk, if_neg hk]

/-- addNsValuesContent keeps the outer keys duplicate-free. -/
theorem nodup_keys_addNsValues (m : IdToNsToFileMap) (id : String) (v : IdToFileMap)
    (h : (keysOf m).Nodup) : (keysOf (addNsValuesContent m id v)).Nodup := by
  unfold addNsValuesContent
  cases hl : lookupEntry m id with
  | some inner =>
    rw [keysOf_setEntry, hl]
    simpa using h
  | none =>
    rw [keysOf_setEntry, hl]
    simp only [Option.isSome_none, Bool.false_eq_true, if_false]
    have hid : id ∉ keysOf m := by
      intro hmem
      rw [← lookupEntry_isSome_iff, hl] at hmem
      simp at hmem
    simp [List.nodup_append, h, hid]

/-- Lookup through the merge of two nested maps, provided the second map
has duplicate-free outer keys. -/
theorem lookupEntry_mergeNsMap (a b : IdToNsToFileMap) (hb : (keysOf b).Nodup)
    (k : String) :
    lookupEntry (mergeNsMap a b) k = olupNs (lookupEntry a k) (lookupEntry b k) := by
  induction b generalizing a with
  | nil =>
    show lookupEntry a k = olupNs (lookupEntry a k) none
    rw [olupNs_none_right]
  | cons p rest ih =>
    obtain ⟨id, v⟩ := p
    rw [keysOf, List.map_cons, List.nodup_cons] at hb
    obtain ⟨hid, hrest⟩ := hb
    show lookupEntry (mergeNsMap (addNsValuesContent a id v) rest) k = _
    rw [ih (addNsValuesContent a id v) hrest, lookupEntry_addNsValues]
    by_cases hk : id = k
    · subst hk
      have hnone : lookupEntry rest id = none := by
        cases hq : lookupEntry rest id with
        | none => rfl
        | some s =>
          refine absurd ?_ hid
          show id ∈ keysOf rest
          rw [← lookupEntry_isSome_iff, hq]
          rfl
      rw [if_pos rfl, hnone, olupNs_none_right, lookupEntry, if_pos rfl]
    · rw [if_neg hk, lookupEntry, if_neg hk]

/-- The merge of two nested maps keeps the outer keys duplicate-free. -/
theorem nodup_keys_mergeNsMap (a b : IdToNsToFileMap) (ha : (keysOf a).Nodup) :
    (keysOf (mergeNsMap a b)).Nodup := by
  induction b generalizing a with
  | nil => exact ha
  | cons p rest ih =>
    show (keysOf (mergeNsMap (addNsValuesContent a p.1 p.2) rest)).Nodup
    exact ih _ (nodup_keys_addNsValues a p.1 p.2 ha)

/-- addNsValuesContent keeps every inner map's keys duplicate-free. -/
theorem wfNs_addNsValues (m : IdToNsToFileMap) (id : String) (v : IdToFileMap)
    (hm : WfNs m) (hv : (keysOf v).Nodup) : WfNs (addNsValuesContent m id v) := by
  obtain ⟨hm1, hm2⟩ := hm
  refine ⟨nodup_keys_addNsValues m id v hm1, ?_⟩
  intro p hp
  unfold addNsValuesContent at hp
  cases hl : lookupEntry m id with
  | some inner =>
    rw [hl] at hp
    rcases mem_setEntry _ _ _ _ hp with h | h
    · exact hm2 p h
    · rw [h]
      exact nodup_keys_mergeIdMap inner v (hm2 (id, inner) (mem_of_lookupEntry m id inner hl))
  | none =>
    rw [hl] at hp
    rcases mem_setEntry _ _ _ _ hp with h | h
    · exact hm2 p h
    · rw [h]
      exact hv

/-- The merge of two wellformed nested maps is wellformed. -/
theorem wfNs_mergeNsMap (a b : IdToNsToFileMap) (ha : WfNs a) (hb : WfNs b) :
    WfNs (mergeNsMap a b) := by
  induction b generalizing a with
  | nil => exact ha
  | cons p rest ih =>
    have hbrest : WfNs rest := by
      obtain ⟨hb1, hb2⟩ := hb
      rw [keysOf, List.map_cons, List.nodup_cons] at hb1
      exact ⟨hb1.2, fun q hq => hb2 q (List.mem_cons_of_mem _ hq)⟩
    have hv : (keysOf p.2).Nodup := hb.2 p (List.mem_cons_self _ _)
    show WfNs (mergeNsMap (addNsValuesContent a p.1 p.2) rest)
    exact ih _ (wfNs_addNsValues a p.1 p.2 ha hv) hbrest

/-- eqvNsO is reflexive. -/
theorem eqvNsO_refl (o : Option IdToFileMap) : eqvNsO o o := by
  cases o with
  | none => trivial
  | some x => exact eqvId_refl x

/-- Merging nested maps is commutative up to content. -/
theorem eqvNs_mergeNsMap_comm (a b : IdToNsToFileMap) (ha : WfNs a) (hb : WfNs b) :
    eqvNs (mergeNsMap a b) (mergeNsMap b a) := fun k => by
  rw [lookupEntry_mergeNsMap a b hb.1 k, lookupEntry_mergeNsMap b a ha.1 k]
  cases hla : lookupEntry a k with
  | none =>
    cases hlb : lookupEntry b k with
    | none => trivial
    | some y => exact eqvNsO_refl _
  | some x =>
    cases hlb : lookupEntry b k with
    | none => exact eqvNsO_refl _
    | some y =>
      exact eqvId_mergeIdMap_comm x y (ha.2 (k, x) (mem_of_lookupEntry a k x hla))
        (hb.2 (k, y) (mem_of_lookupEntry b k y hlb))

/-- Merging nested maps is associative up to content. -/
theorem eqvNs_mergeNsMap_assoc (a b c : IdToNsToFileMap) (hb : WfNs b) (hc : WfNs c) :
    eqvNs (mergeNsMap (mergeNsMap a b) c) (mergeNsMap a (mergeNsMap b c)) := fun k => by
  rw [lookupEntry_mergeNsMap _ c hc.1 k, lookupEntry_mergeNsMap a b hb.1 k,
    lookupEntry_mergeNsMap a _ (nodup_keys_mergeNsMap b c hb.1) k,
    lookupEntry_mergeNsMap b c hc.1 k]
  cases hla : lookupEntry a k with
  | none =>
    cases hlb : lookupEntry b k with
    | none =>
      cases hlc : lookupEntry c k with
      | none => trivial
      | some z => exact eqvNsO_refl _
    | some y =>
      cases hlc : lookupEntry c k with
      | none => exact eqvNsO_refl _
      | some z => exact eqvNsO_refl _
  | some x =>
    cases hlb : lookupEntry b k with
    | none =>
      cases hlc : lookupEntry c k with
      | none => exact eqvNsO_refl _
      | some z => exact eqvNsO_refl _
    | some y =>
      cases hlc : lookupEntry c k with
      | none => exact eqvNsO_refl _
      | some z =>
        exact eqvId_mergeIdMap_assoc x y z (hb.2 (k, y) (mem_of_lookupEntry b k y hlb))
          (hc.2 (k, z) (mem_of_lookupEntry c k z hlc))

/-- Merging a nested map into itself changes nothing, up to content. -/
theorem eqvNs_mergeNsMap_idem (a : IdToNsToFileMap) (ha : WfNs a) :
    eqvNs (mergeNsMap a a) a := fun k => by
  rw [lookupEntry_mergeNsMap a a ha.1 k]
  cases hla : lookupEntry a k with
  | none => trivial
  | some x => exact eqvId_mergeIdMap_idem x (ha.2 (k, x) (mem_of_lookupEntry a k x hla))

/-- C3. The ImportDetails merge satisfies the union laws: it is
commutative, associative and idempotent up to content, and every field is
only ever unioned — the refs sets union, each flat identifier-keyed map
unions the value sets per key, the alias-keyed nested maps union
recursively, and unseen keys are adopted wholesale, never overwriting
anything. Wellformedness asks only that the JS Maps carry no duplicate
keys, which holds of every real Map. -/
theorem C3_union_laws (A B C : ImportDetails) (hA : WfDetails A) (hB : WfDetails B)
    (hC : WfDetails C) :
    eqvDetails (updateImportDetails A B) (updateImportDetails B A) ∧
      eqvDetails (updateImportDetails (updateImportDetails A B) C)
        (updateImportDetails A (updateImportDetails B C)) ∧
      eqvDetails (updateImportDetails A A) A ∧
      (updateImportDetails A B).refs = A.refs ∪ B.refs ∧
      (∀ k, lookupEntry (updateImportDetails A B).imported k =
        olup (lookupEntry A.imported k) (lookupEntry B.imported k)) ∧
      (∀ k, lookupEntry (updateImportDetails A B).importedAs k =
        olupNs (lookupEntry A.importedAs k) (lookupEntry B.importedAs k)) ∧
      (∀ k, lookupEntry (updateImportDetails A B).importedNs k =
        olup (lookupEntry A.importedNs k) (lookupEntry B.importedNs k)) ∧
      (∀ k, lookupEntry (updateImportDetails A B).reExported k =
        olup (lookupEntry A.reExported k) (lookupEntry B.reExported k)) ∧
      (∀ k, lookupEntry (updateImportDetails A B).reExportedAs k =
        olupNs (lookupEntry A.reExportedAs k) (lookupEntry B.reExportedAs k)) ∧
      (∀ k, lookupEntry (updateImportDetails A B).reExportedNs k =
        olup (lookupEntry A.reExportedNs k) (lookupEntry B.reExportedNs k)) := by
  obtain ⟨hA1, hA2, hA3, hA4, hA5, hA6⟩ := hA
  obtain ⟨hB1, hB2, hB3, hB4, hB5, hB6⟩ := hB
  obtain ⟨hC1, hC2, hC3, hC4, hC5, hC6⟩ := hC
  refine ⟨⟨Finset.union_comm _ _, eqvId_mergeIdMap_comm _ _ hA1 hB1,
      eqvNs_mergeNsMap_comm _ _ hA2 hB2, eqvId_mergeIdMap_comm _ _ hA3 hB3,
      eqvId_mergeIdMap_comm _ _ hA4 hB4, eqvNs_mergeNsMap_comm _ _ hA5 hB5,
      eqvId_mergeIdMap_comm _ _ hA6 hB6⟩,
    ⟨Finset.union_assoc _ _ _, eqvId_mergeIdMap_assoc _ _ _ hB1 hC1,
      eqvNs_mergeNsMap_assoc _ _ _ hB2 hC2, eqvId_mergeIdMap_assoc _ _ _ hB3 hC3,
      eqvId_mergeIdMap_assoc _ _ _ hB4 hC4, eqvNs_mergeNsMap_assoc _ _ _ hB5 hC5,
      eqvId_mergeIdMap_assoc _ _ _ hB6 hC6⟩,
    ⟨Finset.union_self _, eqvId_mergeIdMap_idem _ hA1, eqvNs_mergeNsMap_idem _ hA2,
      eqvId_mergeIdMap_idem _ hA3, eqvId_mergeIdMap_idem _ hA4,
      eqvNs_mergeNsMap_idem _ hA5, eqvId_mergeIdMap_idem _ hA6⟩,
    rfl,
    fun k => lookupEntry_mergeIdMap _ _ hB1 k,
    fun k => lookupEntry_mergeNsMap _ _ hB2.1 k,
    fun k => lookupEntry_mergeIdMap _ _ hB3 k,
    fun k => lookupEntry_mergeIdMap _ _ hB4 k,
    fun k => lookupEntry_mergeNsMap _ _ hB5.1 k,
    fun k => lookupEntry_mergeIdMap _ _ hB6 k⟩

/-- C3, witness: the concrete parser records of the scenario (plus a third
record with an aliased import) are wellformed, and the laws hold at them. -/
theorem C3_union_laws_witness :
    WfDetails detailsA ∧ WfDetails detailsB ∧ WfDetails detailsC ∧
      eqvDetails (updateImportDetails detailsA detailsB)
        (updateImportDetails detailsB detailsA) ∧
      eqvDetails (updateImportDetails detailsA detailsA) detailsA ∧
      (updateImportDetails detailsA detailsC).refs = detailsA.refs ∪ detailsC.refs := by
  have h := C3_union_laws detailsA detailsB detailsC (by decide) (by decide) (by decide)
  have h2 := C3_union_laws detailsA detailsC detailsB (by decide) (by decide) (by decide)
  exact ⟨by decide, by decide, by decide, h.1, h.2.2.1, h2.2.2.2.1⟩

/-- One loop iteration leaves every field of the source node except
`imports.internal` unchanged. -/
theorem step_file_fields (acc : FileNode × Graph × Heap) (e : String × Ref) :
    (updateImportMapStep acc e).1.imports.external = acc.1.imports.external ∧
      (updateImportMapStep acc e).1.imports.unresolved = acc.1.imports.unresolved ∧
      (updateImportMapStep acc e).1.exports = acc.1.exports ∧
      (updateImportMapStep acc e).1.imported = acc.1.imported ∧
      (updateImportMapStep acc e).1.duplicates = acc.1.duplicates ∧
      (updateImportMapStep acc e).1.scripts = acc.1.scripts ∧
      (updateImportMapStep acc e).1.traceRefs = acc.1.traceRefs := by
  obtain ⟨f, g, h⟩ := acc
  obtain ⟨ifp, r⟩ := e
  cases hli : lookupEntry f.imports.internal ifp <;>
    cases himp : ((lookupEntry g ifp).getD createFileNode).imported <;>
      simp [updateImportMapStep, getOrCreateFileNode, hli, himp]

/-- One loop iteration leaves the source node's internal entries for other
targets unchanged. -/
theorem step_file_internal_off (acc : FileNode × Graph × Heap) (e : String × Ref)
    (p : String) (hp : p ≠ e.1) :
    lookupEntry (updateImportMapStep acc e).1.imports.internal p =
      lookupEntry acc.1.imports.internal p := by
  obtain ⟨f, g, h⟩ := acc
  obtain ⟨ifp, r⟩ := e
  have hp' : ¬ ifp = p := fun hq => hp hq.symm
  cases hli : lookupEntry f.imports.internal ifp <;>
    cases himp : ((lookupEntry g ifp).getD createFileNode).imported <;>
      simp [updateImportMapStep, getOrCreateFileNode, hli, himp, lookupEntry_setEntry, hp']

/-- One loop iteration leaves graph entries for other paths unchanged. -/
theorem step_graph_off (acc : FileNode × Graph × Heap) (e : String × Ref)
    (p : String) (hp : p ≠ e.1) :
    lookupEntry (updateImportMapStep acc e).2.1 p = lookupEntry acc.2.1 p := by
  obtain ⟨f, g, h⟩ := acc
  obtain ⟨ifp, r⟩ := e
  have hp' : ¬ ifp = p := fun hq => hp hq.symm
  cases hli : lookupEntry f.imports.internal ifp <;>
    cases himp : ((lookupEntry g ifp).getD createFileNode).imported <;>
      simp [updateImportMapStep, getOrCreateFileNode, hli, himp, lookupEntry_setEntry, hp']

/-- If the graph has no entry for a path after one iteration, it had none
before. -/
theorem step_graph_none (acc : FileNode × Graph × Heap) (e : String × Ref) (p : String)
    (h : lookupEntry (updateImportMapStep acc e).2.1 p = none) :
    lookupEntry acc.2.1 p = none := by
  have h2 := updateImportMapStep_graph_isSome acc e p
  rw [h] at h2
  simp only [Option.isSome_none] at h2
  cases hq : lookupEntry acc.2.1 p with
  | none => rfl
  | some n =>
    rw [hq] at h2
    simp at h2

/-- After one iteration, a graph entry is the old node or a created node,
with every field except `imported` unchanged. -/
theorem step_graph_shape (acc : FileNode × Graph × Heap) (e : String × Ref)
    (p : String) (n' : FileNode)
    (h : lookupEntry (updateImportMapStep acc e).2.1 p = some n') :
    (∃ n, lookupEntry acc.2.1 p = some n ∧ nodeShape n' = nodeShape n) ∨
      (lookupEntry acc.2.1 p = none ∧ nodeShape n' = nodeShape createFileNode) := by
  obtain ⟨f, g, hh⟩ := acc
  obtain ⟨ifp, r⟩ := e
  by_cases hip : ifp = p
  · subst hip
    cases hg : lookupEntry g ifp with
    | none =>
      cases hli : lookupEntry f.imports.internal ifp <;>
        · simp only [updateImportMapStep, getOrCreateFileNode, hli, hg, Option.getD_none,
            createFileNode] at h
          rw [lookupEntry_setEntry, if_pos rfl] at h
          refine Or.inr ⟨rfl, ?_⟩
          cases Option.some.inj h
          rfl
    | some n =>
      cases hli : lookupEntry f.imports.internal ifp <;>
        cases himp : n.imported <;>
          · simp only [updateImportMapStep, getOrCreateFileNode, hli, hg, Option.getD_some,
              himp] at h
            rw [lookupEntry_setEntry, if_pos rfl] at h
            refine Or.inl ⟨n, rfl, ?_⟩
            cases Option.some.inj h
            rfl
  · have hoff := step_graph_off (f, g, hh) (ifp, r) p (fun hq => hip hq.symm)
    rw [hoff] at h
    exact Or.inl ⟨n', h, rfl⟩

/-- After one iteration, every reference stored in the source node's
internal entries was already there or is the iteration's own reference. -/
theorem step_internal_refs (acc : FileNode × Graph × Heap) (e : String × Ref) (r' : Ref)
    (h : r' ∈ (updateImportMapStep acc e).1.imports.internal.map (·.2)) :
    r' ∈ acc.1.imports.internal.map (·.2) ∨ r' = e.2 := by
  obtain ⟨f, g, hh⟩ := acc
  obtain ⟨ifp, r⟩ := e
  cases hli : lookupEntry f.imports.internal ifp with
  | some r1 =>
    refine Or.inl ?_
    cases hg : lookupEntry g ifp with
    | none =>
      simpa [updateImportMapStep, getOrCreateFileNode, hli, hg, createFileNode] using h
    | some n =>
      cases himp : n.imported <;>
        simpa [updateImportMapStep, getOrCreateFileNode, hli, hg, himp] using h
  | none =>
    have hset : r' ∈ (setEntry f.imports.internal ifp r).map (·.2) := by
      cases hg : lookupEntry g ifp with
      | none =>
        simpa [updateImportMapStep, getOrCreateFileNode, hli, hg, createFileNode] using h
      | some n =>
        cases himp : n.imported <;>
          simpa [updateImportMapStep, getOrCreateFileNode, hli, hg, himp] using h
    rcases List.mem_map.mp hset with ⟨pair, hpair, hval⟩
    rcases mem_setEntry _ _ _ _ hpair with hm | hm
    · exact Or.inl (List.mem_map.mpr ⟨pair, hm, hval⟩)
    · refine Or.inr ?_
      rw [← hval, hm]

/-- After one iteration, every reference stored as some graph node's
`imported` aggregate was already stored that way or is the iteration's own
reference. -/
theorem step_graph_imported (acc : FileNode × Graph × Heap) (e : String × Ref)
    (q' : String × FileNode) (ri : Ref)
    (hq : q' ∈ (updateImportMapStep acc e).2.1) (hi : q'.2.imported = some ri) :
    (∃ q ∈ acc.2.1, q.2.imported = some ri) ∨ ri = e.2 := by
  obtain ⟨f, g, hh⟩ := acc
  obtain ⟨ifp, r⟩ := e
  cases hg : lookupEntry g ifp with
  | none =>
    have hset : q' ∈ setEntry g ifp { createFileNode with imported := some r } := by
      cases hli : lookupEntry f.imports.internal ifp <;>
        simpa [updateImportMapStep, getOrCreateFileNode, hli, hg, createFileNode] using hq
    rcases mem_setEntry _ _ _ _ hset with hm | hm
    · exact Or.inl ⟨q', hm, hi⟩
    · refine Or.inr ?_
      rw [hm] at hi
      exact (Option.some.inj hi).symm
  | some n =>
    cases himp : n.imported with
    | none =>
      have hset : q' ∈ setEntry g ifp { n with imported := some r } := by
        cases hli : lookupEntry f.imports.internal ifp <;>
          simpa [updateImportMapStep, getOrCreateFileNode, hli, hg, himp] using hq
      rcases mem_setEntry _ _ _ _ hset with hm | hm
      · exact Or.inl ⟨q', hm, hi⟩
      · refine Or.inr ?_
        rw [hm] at hi
        exact (Option.some.inj hi).symm
    | some r2 =>
      have hset : q' ∈ setEntry g ifp n := by
        cases hli : lookupEntry f.imports.internal ifp <;>
          simpa [updateImportMapStep, getOrCreateFileNode, hli, hg, himp] using hq
      rcases mem_setEntry _ _ _ _ hset with hm | hm
      · exact Or.inl ⟨q', hm, hi⟩
      · rw [hm] at hi
        exact Or.inl ⟨(ifp, n), mem_of_lookupEntry g ifp n hg, hi⟩

/-- The whole fold leaves every field of the source node except
`imports.internal` unchanged. -/
theorem updateImportMap_file_fields (im : ImportMap) (acc : FileNode × Graph × Heap) :
    (im.foldl updateImportMapStep acc).1.imports.external = acc.1.imports.external ∧
      (im.foldl updateImportMapStep acc).1.imports.unresolved = acc.1.imports.unresolved ∧
      (im.foldl updateImportMapStep acc).1.exports = acc.1.exports ∧
      (im.foldl updateImportMapStep acc).1.imported = acc.1.imported ∧
      (im.foldl updateImportMapStep acc).1.duplicates = acc.1.duplicates ∧
      (im.foldl updateImportMapStep acc).1.scripts = acc.1.scripts ∧
      (im.foldl updateImportMapStep acc).1.traceRefs = acc.1.traceRefs := by
  induction im generalizing acc with
  | nil => exact ⟨rfl, rfl, rfl, rfl, rfl, rfl, rfl⟩
  | cons e rest ih =>
    have hs := step_file_fields acc e
    have hr := ih (updateImportMapStep acc e)
    rw [List.foldl_cons]
    exact ⟨hr.1.trans hs.1, hr.2.1.trans hs.2.1, hr.2.2.1.trans hs.2.2.1,
      hr.2.2.2.1.trans hs.2.2.2.1, hr.2.2.2.2.1.trans hs.2.2.2.2.1,
      hr.2.2.2.2.2.1.trans hs.2.2.2.2.2.1, hr.2.2.2.2.2.2.trans hs.2.2.2.2.2.2⟩

/-- The whole fold leaves the source node's internal entries for paths
outside the import map unchanged. -/
theorem updateImportMap_internal_off (im : ImportMap) (acc : FileNode × Graph × Heap)
    (p : String) (hp : p ∉ keysOf im) :
    lookupEntry (im.foldl updateImportMapStep acc).1.imports.internal p =
      lookupEntry acc.1.imports.internal p := by
  induction im generalizing acc with
  | nil => rfl
  | cons e rest ih =>
    rw [keysOf, List.map_cons, List.mem_cons] at hp
    push_neg at hp
    rw [List.foldl_cons, ih (updateImportMapStep acc e) hp.2,
      step_file_internal_off acc e p hp.1]

/-- The whole fold leaves graph entries for paths outside the import map
unchanged. -/
theorem updateImportMap_graph_off (im : ImportMap) (acc : FileNode × Graph × Heap)
    (p : String) (hp : p ∉ keysOf im) :
    lookupEntry (im.foldl updateImportMapStep acc).2.1 p =
      lookupEntry acc.2.1 p := by
  induction im generalizing acc with
  | nil => rfl
  | cons e rest ih =>
    rw [keysOf, List.map_cons, List.mem_cons] at hp
    push_neg at hp
    rw [List.foldl_cons, ih (updateImportMapStep acc e) hp.2, step_graph_off acc e p hp.1]

/-- After the whole fold, every graph entry is the old node or a freshly
created one, with every field except `imported` unchanged. -/
theorem updateImportMap_graph_shape (im : ImportMap) (acc : FileNode × Graph × Heap)
    (p : String) (n' : FileNode)
    (h : lookupEntry (im.foldl updateImportMapStep acc).2.1 p = some n') :
    (∃ n, lookupEntry acc.2.1 p = some n ∧ nodeShape n' = nodeShape n) ∨
      (lookupEntry acc.2.1 p = none ∧ nodeShape n' = nodeShape createFileNode) := by
  induction im generalizing acc with
  | nil => exact Or.inl ⟨n', h, rfl⟩
  | cons e rest ih =>
    rw [List.foldl_cons] at h
    rcases ih (updateImportMapStep acc e) h with ⟨n1, hn1, hsh⟩ | ⟨hnone, hsh⟩
    · rcases step_graph_shape acc e p n1 hn1 with ⟨n0, hn0, hsh0⟩ | ⟨hnone0, hsh0⟩
      · exact Or.inl ⟨n0, hn0, hsh.trans hsh0⟩
      · exact Or.inr ⟨hnone0, hsh.trans hsh0⟩
    · exact Or.inr ⟨step_graph_none acc e p hnone, hsh⟩


/-- Writing one ImportDetails cell leaves every other ImportDetails cell
unchanged. -/
theorem getD_setD_ne (h : Heap) (r r' : Ref) (d : ImportDetailsObj) (hne : r' ≠ r) :
    (h.setD r d).getD r' = h.getD r' := by
  unfold Heap.setD Heap.getD
  simp only [List.get?_eq_getElem?, List.getElem?_set]
  rw [if_neg (fun hq => hne hq.symm)]

/-- Reading back a written ImportDetails cell yields the written object, or
the default object when the reference is out of range (the modelled
programs never write out of range; the disjunct keeps the lemma total). -/
theorem getD_setD_self (h : Heap) (r : Ref) (d : ImportDetailsObj) :
    (h.setD r d).getD r = d ∨ (h.setD r d).getD r = createImportsObj := by
  by_cases hlt : r < h.details.length
  · left
    unfold Heap.setD Heap.getD
    simp [List.get?_eq_getElem?, List.getElem?_set, hlt]
  · right
    unfold Heap.setD Heap.getD
    rw [List.set_eq_of_length_le (Nat.le_of_not_lt hlt)]
    simp [List.get?_eq_getElem?, List.getElem?_eq_none (Nat.le_of_not_lt hlt)]

/-- Writing one inner-Map cell leaves every other inner-Map cell
unchanged. -/
theorem getM_setM_ne (h : Heap) (m m' : MRef) (v : List (String × SRef)) (hne : m' ≠ m) :
    (h.setM m v).getM m' = h.getM m' := by
  unfold Heap.setM Heap.getM
  simp only [List.get?_eq_getElem?, List.getElem?_set]
  rw [if_neg (fun hq => hne hq.symm)]

/-- Reading back a written inner-Map cell yields the written value, or the
cell's old value when the reference is out of range. -/
theorem getM_setM_self (h : Heap) (m : MRef) (v : List (String × SRef)) :
    (h.setM m v).getM m = v ∨ (h.setM m v).getM m = h.getM m := by
  by_cases hlt : m < h.innerMaps.length
  · left
    unfold Heap.setM Heap.getM
    simp [List.get?_eq_getElem?, List.getElem?_set, hlt]
  · right
    unfold Heap.setM Heap.getM
    rw [List.set_eq_of_length_le (Nat.le_of_not_lt hlt)]

/-- Writing one Set cell leaves every other Set cell unchanged. -/
theorem getS_setS_ne (h : Heap) (s s' : SRef) (v : Finset String) (hne : s' ≠ s) :
    (h.setS s v).getS s' = h.getS s' := by
  unfold Heap.setS Heap.getS
  simp only [List.get?_eq_getElem?, List.getElem?_set]
  rw [if_neg (fun hq => hne hq.symm)]

/-- The three stores are independent: writing a Set cell changes no
ImportDetails cell. -/
theorem getD_setS (h : Heap) (s : SRef) (v : Finset String) (r : Ref) :
    (h.setS s v).getD r = h.getD r := rfl

/-- Writing a Set cell changes no inner-Map cell. -/
theorem getM_setS (h : Heap) (s : SRef) (v : Finset String) (m : MRef) :
    (h.setS s v).getM m = h.getM m := rfl

/-- Writing an inner-Map cell changes no ImportDetails cell. -/
theorem getD_setM (h : Heap) (m : MRef) (v : List (String × SRef)) (r : Ref) :
    (h.setM m v).getD r = h.getD r := rfl

/-- Writing an inner-Map cell changes no Set cell. -/
theorem getS_setM (h : Heap) (m : MRef) (v : List (String × SRef)) (s : SRef) :
    (h.setM m v).getS s = h.getS s := rfl

/-- Writing an ImportDetails cell changes no inner-Map cell. -/
theorem getM_setD (h : Heap) (r : Ref) (d : ImportDetailsObj) (m : MRef) :
    (h.setD r d).getM m = h.getM m := rfl

/-- Writing an ImportDetails cell changes no Set cell. -/
theorem getS_setD (h : Heap) (r : Ref) (d : ImportDetailsObj) (s : SRef) :
    (h.setD r d).getS s = h.getS s := rfl

/-- Frame of a single `addValues` call with respect to a set `SS` of Set
references containing the map's values and the incoming value: the
ImportDetails and inner-Map stores are untouched, every Set cell outside
`SS` is untouched, and the returned map's values stay inside `SS` (the
unseen-key branch adopts the incoming reference, which is in `SS`). -/
theorem addValues_frame (SS : SRef → Prop) (st : Heap) (map : List (String × SRef))
    (id : String) (v : SRef) (hmap : ∀ p ∈ map, SS p.2) (hv : SS v) :
    (∀ d, (addValues st map id v).1.getD d = st.getD d) ∧
      (∀ m, (addValues st map id v).1.getM m = st.getM m) ∧
      (∀ s, ¬SS s → (addValues st map id v).1.getS s = st.getS s) ∧
      (∀ p ∈ (addValues st map id v).2, SS p.2) := by
  cases hl : lookupEntry map id with
  | none =>
    refine ⟨fun _ => ?_, fun _ => ?_, fun s hs => ?_, fun p hp => ?_⟩
    · simp only [addValues, hl]
    · simp only [addValues, hl]
    · simp only [addValues, hl]
    · simp only [addValues, hl] at hp
      rcases mem_setEntry map id v p hp with hm | hm
      · exact hmap p hm
      · rw [hm]
        exact hv
  | some s0 =>
    have hs0 : SS s0 := hmap (id, s0) (mem_of_lookupEntry map id s0 hl)
    refine ⟨fun d => ?_, fun m => ?_, fun s hs => ?_, fun p hp => ?_⟩
    · simp only [addValues, hl]
      exact getD_setS st s0 _ d
    · simp only [addValues, hl]
      exact getM_setS st s0 _ m
    · simp only [addValues, hl]
      exact getS_setS_ne st s0 s _ (fun hq => hs (hq ▸ hs0))
    · simp only [addValues, hl] at hp
      exact hmap p hp

/-- Frame of one flat-field loop: iterating `addValues` keeps the
ImportDetails and inner-Map stores untouched, keeps every Set cell outside
`SS` untouched, and keeps the threaded map's values inside `SS`. -/
theorem foldFlat_frame (SS : SRef → Prop) (src : List (String × SRef)) (st : Heap)
    (map : List (String × SRef)) (hmap : ∀ p ∈ map, SS p.2)
    (hsrc : ∀ p ∈ src, SS p.2) :
    (∀ d, (foldFlat (st, map) src).1.getD d = st.getD d) ∧
      (∀ m, (foldFlat (st, map) src).1.getM m = st.getM m) ∧
      (∀ s, ¬SS s → (foldFlat (st, map) src).1.getS s = st.getS s) ∧
      (∀ p ∈ (foldFlat (st, map) src).2, SS p.2) := by
  induction src generalizing st map with
  | nil => exact ⟨fun _ => rfl, fun _ => rfl, fun _ _ => rfl, hmap⟩
  | cons e rest ih =>
    have he := addValues_frame SS st map e.1 e.2 hmap (hsrc e (List.mem_cons_self e rest))
    rcases hav : addValues st map e.1 e.2 with ⟨st1, map1⟩
    rw [hav] at he
    dsimp only at he
    have hstep : foldFlat (st, map) (e :: rest) = foldFlat (st1, map1) rest := by
      simp [foldFlat, hav]
    rw [hstep]
    have hr := ih st1 map1 he.2.2.2 (fun p hp => hsrc p (List.mem_cons_of_mem e hp))
    exact ⟨fun d => (hr.1 d).trans (he.1 d),
      fun m => (hr.2.1 m).trans (he.2.1 m),
      fun s hs => (hr.2.2.1 s hs).trans (he.2.2.1 s hs),
      hr.2.2.2⟩

/-- Frame of the seen-key loop of `addNsValues` writing the inner-Map cell
`inner`: the ImportDetails store is untouched, inner-Map cells outside `MS`
and Set cells outside `SS` are untouched, and the closure invariant — every
inner-Map cell in `MS` holds only Set references in `SS` — is preserved
(the loop adopts incoming Set references, which `hent` keeps inside
`SS`). -/
theorem innerFold_frame (MS : MRef → Prop) (SS : SRef → Prop) (inner : MRef)
    (hinner : MS inner) (entries : List (String × SRef))
    (hent : ∀ p ∈ entries, SS p.2) (st : Heap)
    (hM : ∀ m, MS m → ∀ p ∈ st.getM m, SS p.2) :
    (∀ d, (innerFold inner st entries).getD d = st.getD d) ∧
      (∀ m, ¬MS m → (innerFold inner st entries).getM m = st.getM m) ∧
      (∀ s, ¬SS s → (innerFold inner st entries).getS s = st.getS s) ∧
      (∀ m, MS m → ∀ p ∈ (innerFold inner st entries).getM m, SS p.2) := by
  induction entries generalizing st with
  | nil => exact ⟨fun _ => rfl, fun _ _ => rfl, fun _ _ => rfl, hM⟩
  | cons e rest ih =>
    have ha := addValues_frame SS st (st.getM inner) e.1 e.2 (hM inner hinner)
      (hent e (List.mem_cons_self e rest))
    rcases hav : addValues st (st.getM inner) e.1 e.2 with ⟨stA, mapA⟩
    rw [hav] at ha
    dsimp only at ha
    have hstep : innerFold inner st (e :: rest) = innerFold inner (stA.setM inner mapA) rest := by
      simp [innerFold, hav]
    rw [hstep]
    have hM1 : ∀ m, MS m → ∀ p ∈ (stA.setM inner mapA).getM m, SS p.2 := by
      intro m hm p hp
      by_cases hmi : m = inner
      · subst hmi
        rcases getM_setM_self stA m mapA with hq | hq
        · rw [hq] at hp
          exact ha.2.2.2 p hp
        · rw [hq, ha.2.1 m] at hp
          exact hM m hm p hp
      · rw [getM_setM_ne stA inner m mapA hmi, ha.2.1 m] at hp
        exact hM m hm p hp
    have hr := ih (fun p hp => hent p (List.mem_cons_of_mem e hp)) (stA.setM inner mapA) hM1
    refine ⟨fun d => ?_, fun m hm => ?_, fun s hs => ?_, hr.2.2.2⟩
    · rw [hr.1 d, getD_setM, ha.1 d]
    · rw [hr.2.1 m hm, getM_setM_ne stA inner m mapA (fun hq => hm (hq ▸ hinner)), ha.2.1 m]
    · rw [hr.2.2.1 s hs, getS_setM, ha.2.2.1 s hs]

/-- Frame of a single `addNsValues` call: the ImportDetails store is
untouched, inner-Map cells outside `MS` and Set cells outside `SS` are
untouched, the closure invariant is preserved, and the returned map's
values stay inside `MS` (the unseen-key branch adopts the incoming
inner-Map reference, which is in `MS`). -/
theorem addNsValues_frame (MS : MRef → Prop) (SS : SRef → Prop) (st : Heap)
    (map : List (String × MRef)) (id : String) (v : MRef)
    (hmap : ∀ p ∈ map, MS p.2) (hv : MS v)
    (hM : ∀ m, MS m → ∀ p ∈ st.getM m, SS p.2) :
    (∀ d, (addNsValues st map id v).1.getD d = st.getD d) ∧
      (∀ m, ¬MS m → (addNsValues st map id v).1.getM m = st.getM m) ∧
      (∀ s, ¬SS s → (addNsValues st map id v).1.getS s = st.getS s) ∧
      (∀ m, MS m → ∀ p ∈ (addNsValues st map id v).1.getM m, SS p.2) ∧
      (∀ p ∈ (addNsValues st map id v).2, MS p.2) := by
  cases hl : lookupEntry map id with
  | none =>
    refine ⟨fun _ => ?_, fun m hm => ?_, fun s hs => ?_, fun m hm p hp => ?_, fun p hp => ?_⟩
    · simp only [addNsValues, hl]
    · simp only [addNsValues, hl]
    · simp only [addNsValues, hl]
    · simp only [addNsValues, hl] at hp
      exact hM m hm p hp
    · simp only [addNsValues, hl] at hp
      rcases mem_setEntry map id v p hp with hm | hm
      · exact hmap p hm
      · rw [hm]
        exact hv
  | some inner =>
    have hin : MS inner := hmap (id, inner) (mem_of_lookupEntry map id inner hl)
    have hi := innerFold_frame MS SS inner hin (st.getM v) (hM v hv) st hM
    refine ⟨fun d => ?_, fun m hm => ?_, fun s hs => ?_, fun m hm p hp => ?_, fun p hp => ?_⟩
    · simp only [addNsValues, hl]
      exact hi.1 d
    · simp only [addNsValues, hl]
      exact hi.2.1 m hm
    · simp only [addNsValues, hl]
      exact hi.2.2.1 s hs
    · simp only [addNsValues, hl] at hp
      exact hi.2.2.2 m hm p hp
    · simp only [addNsValues, hl] at hp
      exact hmap p hp

/-- Frame of one nested-field loop: iterating `addNsValues` keeps the
ImportDetails store untouched, inner-Map cells outside `MS` and Set cells
outside `SS` untouched, preserves the closure invariant, and keeps the
threaded map's values inside `MS`. -/
theorem foldNs_frame (MS : MRef → Prop) (SS : SRef → Prop) (src : List (String × MRef))
    (st : Heap) (map : List (String × MRef)) (hmap : ∀ p ∈ map, MS p.2)
    (hsrc : ∀ p ∈ src, MS p.2)
    (hM : ∀ m, MS m → ∀ p ∈ st.getM m, SS p.2) :
    (∀ d, (foldNs (st, map) src).1.getD d = st.getD d) ∧
      (∀ m, ¬MS m → (foldNs (st, map) src).1.getM m = st.getM m) ∧
      (∀ s, ¬SS s → (foldNs (st, map) src).1.getS s = st.getS s) ∧
      (∀ m, MS m → ∀ p ∈ (foldNs (st, map) src).1.getM m, SS p.2) ∧
      (∀ p ∈ (foldNs (st, map) src).2, MS p.2) := by
  induction src generalizing st map with
  | nil => exact ⟨fun _ => rfl, fun _ _ => rfl, fun _ _ => rfl, hM, hmap⟩
  | cons e rest ih =>
    have he := addNsValues_frame MS SS st map e.1 e.2 hmap
      (hsrc e (List.mem_cons_self e rest)) hM
    rcases hav : addNsValues st map e.1 e.2 with ⟨st1, map1⟩
    rw [hav] at he
    dsimp only at he
    have hstep : foldNs (st, map) (e :: rest) = foldNs (st1, map1) rest := by
      simp [foldNs, hav]
    rw [hstep]
    have hr := ih st1 map1 he.2.2.2.2 (fun p hp => hsrc p (List.mem_cons_of_mem e hp))
      he.2.2.2.1
    exact ⟨fun d => (hr.1 d).trans (he.1 d),
      fun m hm => (hr.2.1 m hm).trans (he.2.1 m hm),
      fun s hs => (hr.2.2.1 s hs).trans (he.2.2.1 s hs),
      hr.2.2.2.1, hr.2.2.2.2⟩

/-- Frame of a whole `updateImportDetails` call through the heap, against
reference sets `DS` (ImportDetails objects), `MS` (inner-Map objects) and
`SS` (Set objects): if both records are in `DS`, every `DS` record's
references lie in `MS`/`SS`, and every `MS` cell's values lie in `SS`,
then the call leaves every cell outside `DS`/`MS`/`SS` unchanged and
preserves both invariants (adoption only moves references already reachable
from the source record, which is in `DS`). -/
theorem updateImportDetailsH_frame (DS : Ref → Prop) (MS : MRef → Prop)
    (SS : SRef → Prop) (st : Heap) (importedModule importItems : Ref)
    (htgt : DS importedModule) (hsrc : DS importItems)
    (hD : ∀ d, DS d → objInBounds MS SS (st.getD d))
    (hM : ∀ m, MS m → ∀ p ∈ st.getM m, SS p.2) :
    (∀ d, ¬DS d → (updateImportDetailsH st importedModule importItems).getD d = st.getD d) ∧
      (∀ m, ¬MS m → (updateImportDetailsH st importedModule importItems).getM m = st.getM m) ∧
      (∀ s, ¬SS s → (updateImportDetailsH st importedModule importItems).getS s = st.getS s) ∧
      (∀ d, DS d →
        objInBounds MS SS ((updateImportDetailsH st importedModule importItems).getD d)) ∧
      (∀ m, MS m →
        ∀ p ∈ (updateImportDetailsH st importedModule importItems).getM m, SS p.2) := by
  have hDt := hD importedModule htgt
  have hDs := hD importItems hsrc
  unfold objInBounds at hDt hDs
  obtain ⟨ht1, ht2, ht3, ht4, ht5, ht6⟩ := hDt
  obtain ⟨hs1, hs2, hs3, hs4, hs5, hs6⟩ := hDs
  simp only [updateImportDetailsH]
  set a1 := foldFlat (st, (st.getD importedModule).imported)
    (st.getD importItems).imported with ha1
  set a2 := foldNs (a1.1, (st.getD importedModule).importedAs)
    (st.getD importItems).importedAs with ha2
  set a3 := foldFlat (a2.1, (st.getD importedModule).importedNs)
    (st.getD importItems).importedNs with ha3
  set a4 := foldFlat (a3.1, (st.getD importedModule).reExported)
    (st.getD importItems).reExported with ha4
  set a5 := foldNs (a4.1, (st.getD importedModule).reExportedAs)
    (st.getD importItems).reExportedAs with ha5
  set a6 := foldFlat (a5.1, (st.getD importedModule).reExportedNs)
    (st.getD importItems).reExportedNs with ha6
  have e1 := foldFlat_frame SS (st.getD importItems).imported st
    (st.getD importedModule).imported ht1 hs1
  rw [← ha1] at e1
  have hM1 : ∀ m, MS m → ∀ p ∈ a1.1.getM m, SS p.2 := by
    intro m hm p hp
    rw [e1.2.1 m] at hp
    exact hM m hm p hp
  have e2 := foldNs_frame MS SS (st.getD importItems).importedAs a1.1
    (st.getD importedModule).importedAs ht2 hs2 hM1
  rw [← ha2] at e2
  have d2c : ∀ d, a2.1.getD d = st.getD d := fun d => (e2.1 d).trans (e1.1 d)
  have m2c : ∀ m, ¬MS m → a2.1.getM m = st.getM m :=
    fun m hm => (e2.2.1 m hm).trans (e1.2.1 m)
  have s2c : ∀ s, ¬SS s → a2.1.getS s = st.getS s :=
    fun s hs => (e2.2.2.1 s hs).trans (e1.2.2.1 s hs)
  have hM2 := e2.2.2.2.1
  have e3 := foldFlat_frame SS (st.getD importItems).importedNs a2.1
    (st.getD importedModule).importedNs ht3 hs3
  rw [← ha3] at e3
  have d3c : ∀ d, a3.1.getD d = st.getD d := fun d => (e3.1 d).trans (d2c d)
  have m3c : ∀ m, ¬MS m → a3.1.getM m = st.getM m :=
    fun m hm => (e3.2.1 m).trans (m2c m hm)
  have s3c : ∀ s, ¬SS s → a3.1.getS s = st.getS s :=
    fun s hs => (e3.2.2.1 s hs).trans (s2c s hs)
  have hM3 : ∀ m, MS m → ∀ p ∈ a3.1.getM m, SS p.2 := by
    intro m hm p hp
    rw [e3.2.1 m] at hp
    exact hM2 m hm p hp
  have e4 := foldFlat_frame SS (st.getD importItems).reExported a3.1
    (st.getD importedModule).reExported ht4 hs4
  rw [← ha4] at e4
  have d4c : ∀ d, a4.1.getD d = st.getD d := fun d => (e4.1 d).trans (d3c d)
  have m4c : ∀ m, ¬MS m → a4.1.getM m = st.getM m :=
    fun m hm => (e4.2.1 m).trans (m3c m hm)
  have s4c : ∀ s, ¬SS s → a4.1.getS s = st.getS s :=
    fun s hs => (e4.2.2.1 s hs).trans (s3c s hs)
  have hM4 : ∀ m, MS m → ∀ p ∈ a4.1.getM m, SS p.2 := by
    intro m hm p hp
    rw [e4.2.1 m] at hp
    exact hM3 m hm p hp
  have e5 := foldNs_frame MS SS (st.getD importItems).reExportedAs a4.1
    (st.getD importedModule).reExportedAs ht5 hs5 hM4
  rw [← ha5] at e5
  have d5c : ∀ d, a5.1.getD d = st.getD d := fun d => (e5.1 d).trans (d4c d)
  have m5c : ∀ m, ¬MS m → a5.1.getM m = st.getM m :=
    fun m hm => (e5.2.1 m hm).trans (m4c m hm)
  have s5c : ∀ s, ¬SS s → a5.1.getS s = st.getS s :=
    fun s hs => (e5.2.2.1 s hs).trans (s4c s hs)
  have hM5 := e5.2.2.2.1
  have e6 := foldFlat_frame SS (st.getD importItems).reExportedNs a5.1
    (st.getD importedModule).reExportedNs ht6 hs6
  rw [← ha6] at e6
  have d6c : ∀ d, a6.1.getD d = st.getD d := fun d => (e6.1 d).trans (d5c d)
  have m6c : ∀ m, ¬MS m → a6.1.getM m = st.getM m :=
    fun m hm => (e6.2.1 m).trans (m5c m hm)
  have s6c : ∀ s, ¬SS s → a6.1.getS s = st.getS s :=
    fun s hs => (e6.2.2.1 s hs).trans (s5c s hs)
  have hM6 : ∀ m, MS m → ∀ p ∈ a6.1.getM m, SS p.2 := by
    intro m hm p hp
    rw [e6.2.1 m] at hp
    exact hM5 m hm p hp
  refine ⟨fun d hd => ?_, fun m hm => ?_, fun s hs => ?_, fun d hd => ?_,
    fun m hm p hp => ?_⟩
  · have hne : d ≠ importedModule := fun hq => hd (hq ▸ htgt)
    rw [getD_setD_ne _ _ _ _ hne]
    exact d6c d
  · rw [getM_setD]
    exact m6c m hm
  · rw [getS_setD]
    exact s6c s hs
  · by_cases hq : d = importedModule
    · subst hq
      rcases getD_setD_self a6.1 d _ with hobj | hobj
      · rw [hobj]
        unfold objInBounds
        dsimp only
        exact ⟨e1.2.2.2, e2.2.2.2.2, e3.2.2.2, e4.2.2.2, e5.2.2.2.2, e6.2.2.2⟩
      · rw [hobj]
        unfold objInBounds
        simp [createImportsObj]
    · rw [getD_setD_ne _ _ _ _ hq]
      rw [d6c d]
      exact hD d hd
  · rw [getM_setD] at hp
    exact hM6 m hm p hp

/-- Frame of one loop iteration of `updateImportMap` on the heap: if the
iteration's own reference, the source node's internal references and the
graph nodes' `imported` references are all in `DS`, and the `DS`/`MS`
invariants hold, then every heap cell outside `DS`/`MS`/`SS` is unchanged
and the invariants are preserved. -/
theorem step_heap_frame (DS : Ref → Prop) (MS : MRef → Prop) (SS : SRef → Prop)
    (acc : FileNode × Graph × Heap) (e : String × Ref)
    (hDe : DS e.2)
    (hint : ∀ r' ∈ acc.1.imports.internal.map (·.2), DS r')
    (himp : ∀ q ∈ acc.2.1, ∀ ri, q.2.imported = some ri → DS ri)
    (hD : ∀ d, DS d → objInBounds MS SS (acc.2.2.getD d))
    (hM : ∀ m, MS m → ∀ p ∈ acc.2.2.getM m, SS p.2) :
    (∀ d, ¬DS d → (updateImportMapStep acc e).2.2.getD d = acc.2.2.getD d) ∧
      (∀ m, ¬MS m → (updateImportMapStep acc e).2.2.getM m = acc.2.2.getM m) ∧
      (∀ s, ¬SS s → (updateImportMapStep acc e).2.2.getS s = acc.2.2.getS s) ∧
      (∀ d, DS d → objInBounds MS SS ((updateImportMapStep acc e).2.2.getD d)) ∧
      (∀ m, MS m → ∀ p ∈ (updateImportMapStep acc e).2.2.getM m, SS p.2) := by
  obtain ⟨f, g, h⟩ := acc
  obtain ⟨ifp, r⟩ := e
  cases hg : lookupEntry g ifp with
  | none =>
    cases hli : lookupEntry f.imports.internal ifp with
    | none =>
      have hstep : (updateImportMapStep (f, g, h) (ifp, r)).2.2 = h := by
        simp [updateImportMapStep, getOrCreateFileNode, hli, hg, createFileNode]
      rw [hstep]
      exact ⟨fun _ _ => rfl, fun _ _ => rfl, fun _ _ => rfl, hD, hM⟩
    | some r1 =>
      have hr1 : DS r1 :=
        hint r1 (List.mem_map.mpr ⟨(ifp, r1), mem_of_lookupEntry _ _ _ hli, rfl⟩)
      have hstep : (updateImportMapStep (f, g, h) (ifp, r)).2.2 =
          updateImportDetailsH h r1 r := by
        simp [updateImportMapStep, getOrCreateFileNode, hli, hg, createFileNode]
      rw [hstep]
      exact updateImportDetailsH_frame DS MS SS h r1 r hr1 hDe hD hM
  | some n =>
    have hn : (ifp, n) ∈ g := mem_of_lookupEntry g ifp n hg
    cases himp2 : n.imported with
    | none =>
      cases hli : lookupEntry f.imports.internal ifp with
      | none =>
        have hstep : (updateImportMapStep (f, g, h) (ifp, r)).2.2 = h := by
          simp [updateImportMapStep, getOrCreateFileNode, hli, hg, himp2]
        rw [hstep]
        exact ⟨fun _ _ => rfl, fun _ _ => rfl, fun _ _ => rfl, hD, hM⟩
      | some r1 =>
        have hr1 : DS r1 :=
          hint r1 (List.mem_map.mpr ⟨(ifp, r1), mem_of_lookupEntry _ _ _ hli, rfl⟩)
        have hstep : (updateImportMapStep (f, g, h) (ifp, r)).2.2 =
            updateImportDetailsH h r1 r := by
          simp [updateImportMapStep, getOrCreateFileNode, hli, hg, himp2]
        rw [hstep]
        exact updateImportDetailsH_frame DS MS SS h r1 r hr1 hDe hD hM
    | some r2 =>
      have hr2 : DS r2 := himp (ifp, n) hn r2 himp2
      cases hli : lookupEntry f.imports.internal ifp with
      | none =>
        have hstep : (updateImportMapStep (f, g, h) (ifp, r)).2.2 =
            updateImportDetailsH h r2 r := by
          simp [updateImportMapStep, getOrCreateFileNode, hli, hg, himp2]
        rw [hstep]
        exact updateImportDetailsH_frame DS MS SS h r2 r hr2 hDe hD hM
      | some r1 =>
        have hr1 : DS r1 :=
          hint r1 (List.mem_map.mpr ⟨(ifp, r1), mem_of_lookupEntry _ _ _ hli, rfl⟩)
        have hstep : (updateImportMapStep (f, g, h) (ifp, r)).2.2 =
            updateImportDetailsH (updateImportDetailsH h r1 r) r2 r := by
          simp [updateImportMapStep, getOrCreateFileNode, hli, hg, himp2]
        have hu1 := updateImportDetailsH_frame DS MS SS h r1 r hr1 hDe hD hM
        have hu2 := updateImportDetailsH_frame DS MS SS (updateImportDetailsH h r1 r)
          r2 r hr2 hDe hu1.2.2.2.1 hu1.2.2.2.2
        rw [hstep]
        exact ⟨fun d hd => (hu2.1 d hd).trans (hu1.1 d hd),
          fun m hm => (hu2.2.1 m hm).trans (hu1.2.1 m hm),
          fun s hs => (hu2.2.2.1 s hs).trans (hu1.2.2.1 s hs),
          hu2.2.2.2.1, hu2.2.2.2.2⟩

/-- Frame of the whole `updateImportMap` fold on the heap: with the import
map's references, the source node's internal references and the graph
nodes' `imported` references all in `DS`, and the invariants holding at
entry, every heap cell outside `DS`/`MS`/`SS` is unchanged by the fold and
the invariants hold at exit. -/
theorem updateImportMap_heap_frame (DS : Ref → Prop) (MS : MRef → Prop)
    (SS : SRef → Prop) (im : ImportMap) (acc : FileNode × Graph × Heap)
    (him : ∀ r' ∈ im.map (·.2), DS r')
    (hint : ∀ r' ∈ acc.1.imports.internal.map (·.2), DS r')
    (himp : ∀ q ∈ acc.2.1, ∀ ri, q.2.imported = some ri → DS ri)
    (hD : ∀ d, DS d → objInBounds MS SS (acc.2.2.getD d))
    (hM : ∀ m, MS m → ∀ p ∈ acc.2.2.getM m, SS p.2) :
    (∀ d, ¬DS d → (im.foldl updateImportMapStep acc).2.2.getD d = acc.2.2.getD d) ∧
      (∀ m, ¬MS m → (im.foldl updateImportMapStep acc).2.2.getM m = acc.2.2.getM m) ∧
      (∀ s, ¬SS s → (im.foldl updateImportMapStep acc).2.2.getS s = acc.2.2.getS s) ∧
      (∀ d, DS d → objInBounds MS SS ((im.foldl updateImportMapStep acc).2.2.getD d)) ∧
      (∀ m, MS m → ∀ p ∈ (im.foldl updateImportMapStep acc).2.2.getM m, SS p.2) := by
  induction im generalizing acc with
  | nil => exact ⟨fun _ _ => rfl, fun _ _ => rfl, fun _ _ => rfl, hD, hM⟩
  | cons e rest ih =>
    have hDe : DS e.2 := him e.2 (List.mem_map.mpr ⟨e, List.mem_cons_self e rest, rfl⟩)
    have hs := step_heap_frame DS MS SS acc e hDe hint himp hD hM
    have hint' : ∀ r' ∈ (updateImportMapStep acc e).1.imports.internal.map (·.2), DS r' := by
      intro r' hr'
      rcases step_internal_refs acc e r' hr' with hm | hm
      · exact hint r' hm
      · rw [hm]
        exact hDe
    have himp' : ∀ q ∈ (updateImportMapStep acc e).2.1, ∀ ri,
        q.2.imported = some ri → DS ri := by
      intro q hq ri hi
      rcases step_graph_imported acc e q ri hq hi with ⟨q0, hq0, hi0⟩ | hm
      · exact himp q0 hq0 ri hi0
      · rw [hm]
        exact hDe
    have hrest := ih (updateImportMapStep acc e)
      (fun r' hr' => him r' (by
        rcases List.mem_map.mp hr' with ⟨p, hp, hv⟩
        exact List.mem_map.mpr ⟨p, List.mem_cons_of_mem e hp, hv⟩))
      hint' himp' hs.2.2.2.1 hs.2.2.2.2
    rw [List.foldl_cons]
    exact ⟨fun d hd => (hrest.1 d hd).trans (hs.1 d hd),
      fun m hm => (hrest.2.1 m hm).trans (hs.2.1 m hm),
      fun s hss => (hrest.2.2.1 s hss).trans (hs.2.2.1 s hss),
      hrest.2.2.2.1, hrest.2.2.2.2⟩

/-- `touchedRefs` is membership in `rootList`. -/
theorem touchedRefs_iff (file : FileNode) (importMap : ImportMap) (graph : Graph)
    (r : Ref) :
    touchedRefs file importMap graph r ↔ r ∈ rootList file importMap graph := by
  unfold touchedRefs rootList
  simp [List.mem_append, List.mem_filterMap]

/-- A reference in a flat field of an object is one of its Set
references. -/
theorem mem_objSRefs (o : ImportDetailsObj) (p : String × SRef)
    (hp : p ∈ o.imported ∨ p ∈ o.importedNs ∨ p ∈ o.reExported ∨ p ∈ o.reExportedNs) :
    p.2 ∈ objSRefs o := by
  unfold objSRefs
  refine List.mem_map.mpr ⟨p, ?_, rfl⟩
  simp only [List.mem_append]
  tauto

/-- A reference in a nested field of an object is one of its inner-Map
references. -/
theorem mem_objMRefs (o : ImportDetailsObj) (p : String × MRef)
    (hp : p ∈ o.importedAs ∨ p ∈ o.reExportedAs) : p.2 ∈ objMRefs o := by
  unfold objMRefs
  refine List.mem_map.mpr ⟨p, ?_, rfl⟩
  simp only [List.mem_append]
  tauto

/-- Every root record's references lie inside the touched sets of the
initial heap: the base case of the heap-frame invariant. -/
theorem rootObj_inBounds (heap : Heap) (file : FileNode) (importMap : ImportMap)
    (graph : Graph) (d : Ref) (hd : d ∈ rootList file importMap graph) :
    objInBounds (touchedMRefs heap file importMap graph)
      (touchedSRefs heap file importMap graph) (heap.getD d) := by
  unfold objInBounds
  refine ⟨fun p hp => ?_, fun p hp => ?_, fun p hp => ?_, fun p hp => ?_,
    fun p hp => ?_, fun p hp => ?_⟩
  · exact ⟨d, hd, Or.inl (mem_objSRefs _ p (Or.inl hp))⟩
  · exact ⟨d, hd, mem_objMRefs _ p (Or.inl hp)⟩
  · exact ⟨d, hd, Or.inl (mem_objSRefs _ p (Or.inr (Or.inl hp)))⟩
  · exact ⟨d, hd, Or.inl (mem_objSRefs _ p (Or.inr (Or.inr (Or.inl hp))))⟩
  · exact ⟨d, hd, mem_objMRefs _ p (Or.inr hp)⟩
  · exact ⟨d, hd, Or.inl (mem_objSRefs _ p (Or.inr (Or.inr (Or.inr hp))))⟩

/-- Every touched inner-Map cell's values lie inside the touched Set
references of the initial heap: the base case of the closure invariant. -/
theorem rootM_closure (heap : Heap) (file : FileNode) (importMap : ImportMap)
    (graph : Graph) :
    ∀ m, touchedMRefs heap file importMap graph m →
      ∀ p ∈ heap.getM m, touchedSRefs heap file importMap graph p.2 := by
  intro m hm p hp
  obtain ⟨d, hd, hmd⟩ := hm
  exact ⟨d, hd, Or.inr ⟨m, hmd, List.mem_map.mpr ⟨p, hp, rfl⟩⟩⟩

/-- C9. The claim reads `updateImportMap` as updating the source node's
internal entries and the targets' `imported` aggregates and modifying no
other part of the graph. The strict reading fails on the code because the
merged ImportDetails objects and their inner Set and Map objects are
shared between records (counterexample C9_counterexample: the unseen-key
branches store the incoming object itself). Amended frame, proved here:
the call changes only the source node's internal entries at the import
map's keys (every other field of the source node is unchanged), the
`imported` field of target nodes (their other fields, and every graph
entry at a path outside the import map, are unchanged; a missing target
appears as a fresh node differing from `createFileNode` only in
`imported`), and heap cells reachable from the call's root references —
the import map's references, the source node's internal references and the
graph nodes' `imported` references: the records themselves, the inner-Map
objects they hold and the Set objects held directly or through such an
inner-Map cell. Every heap cell outside that reachable set is unchanged. -/
theorem C9_frame (file : FileNode) (importMap : ImportMap) (graph : Graph)
    (heap : Heap) :
    ((updateImportMap file importMap graph heap).1.imports.external =
        file.imports.external ∧
      (updateImportMap file importMap graph heap).1.imports.unresolved =
        file.imports.unresolved ∧
      (updateImportMap file importMap graph heap).1.exports = file.exports ∧
      (updateImportMap file importMap graph heap).1.imported = file.imported ∧
      (updateImportMap file importMap graph heap).1.duplicates = file.duplicates ∧
      (updateImportMap file importMap graph heap).1.scripts = file.scripts ∧
      (updateImportMap file importMap graph heap).1.traceRefs = file.traceRefs) ∧
    (∀ p, p ∉ keysOf importMap →
      lookupEntry (updateImportMap file importMap graph heap).1.imports.internal p =
        lookupEntry file.imports.internal p) ∧
    (∀ p, p ∉ keysOf importMap →
      lookupEntry (updateImportMap file importMap graph heap).2.1 p =
        lookupEntry graph p) ∧
    (∀ p n', lookupEntry (updateImportMap file importMap graph heap).2.1 p = some n' →
      (∃ n, lookupEntry graph p = some n ∧ nodeShape n' = nodeShape n) ∨
        (lookupEntry graph p = none ∧ nodeShape n' = nodeShape createFileNode)) ∧
    (∀ r, ¬touchedRefs file importMap graph r →
      (updateImportMap file importMap graph heap).2.2.getD r = heap.getD r) ∧
    (∀ m, ¬touchedMRefs heap file importMap graph m →
      (updateImportMap file importMap graph heap).2.2.getM m = heap.getM m) ∧
    (∀ s, ¬touchedSRefs heap file importMap graph s →
      (updateImportMap file importMap graph heap).2.2.getS s = heap.getS s) := by
  have hmain := updateImportMap_heap_frame (touchedRefs file importMap graph)
    (touchedMRefs heap file importMap graph) (touchedSRefs heap file importMap graph)
    importMap (file, graph, heap)
    (fun r' hr' => Or.inl hr')
    (fun r' hr' => Or.inr (Or.inl hr'))
    (fun q hq ri hi => Or.inr (Or.inr ⟨q, hq, hi⟩))
    (fun d hd => rootObj_inBounds heap file importMap graph d
      ((touchedRefs_iff file importMap graph d).mp hd))
    (rootM_closure heap file importMap graph)
  exact ⟨updateImportMap_file_fields importMap (file, graph, heap),
    fun p hp => updateImportMap_internal_off importMap (file, graph, heap) p hp,
    fun p hp => updateImportMap_graph_off importMap (file, graph, heap) p hp,
    fun p n' hpn => updateImportMap_graph_shape importMap (file, graph, heap) p n' hpn,
    hmain.1, hmain.2.1, hmain.2.2.1⟩

/-- C9, witness for the amended frame. In the concrete two-file scenario,
after analyzing file A, running `updateImportMap` for file B leaves the
internal entry and graph entry at the unrelated path "X" unchanged, leaves
the ImportDetails cell 5, the inner-Map cell 0 and the Set cell 5 — all
outside the call's reachable set, shown by `decide` — unchanged, and keeps
the source node's `exports` unchanged. -/
theorem C9_frame_witness :
    ("X" ∉ keysOf mapB ∧
      lookupEntry (updateImportMap createFileNode mapB stateAfterA.1
          stateAfterA.2).1.imports.internal "X" =
        lookupEntry createFileNode.imports.internal "X" ∧
      lookupEntry (updateImportMap createFileNode mapB stateAfterA.1
          stateAfterA.2).2.1 "X" = lookupEntry stateAfterA.1 "X") ∧
    (¬touchedRefs createFileNode mapB stateAfterA.1 5 ∧
      (updateImportMap createFileNode mapB stateAfterA.1 stateAfterA.2).2.2.getD 5 =
        stateAfterA.2.getD 5) ∧
    (¬touchedMRefs stateAfterA.2 createFileNode mapB stateAfterA.1 0 ∧
      (updateImportMap createFileNode mapB stateAfterA.1 stateAfterA.2).2.2.getM 0 =
        stateAfterA.2.getM 0) ∧
    (¬touchedSRefs stateAfterA.2 createFileNode mapB stateAfterA.1 5 ∧
      (updateImportMap createFileNode mapB stateAfterA.1 stateAfterA.2).2.2.getS 5 =
        stateAfterA.2.getS 5) ∧
    (updateImportMap createFileNode mapB stateAfterA.1 stateAfterA.2).1.exports =
      createFileNode.exports := by
  have hf := C9_frame createFileNode mapB stateAfterA.1 stateAfterA.2
  exact ⟨⟨by decide, hf.2.1 "X" (by decide), hf.2.2.1 "X" (by decide)⟩,
    ⟨by decide, hf.2.2.2.2.1 5 (by decide)⟩,
    ⟨by decide, hf.2.2.2.2.2.1 0 (by decide)⟩,
    ⟨by decide, hf.2.2.2.2.2.2 5 (by decide)⟩,
    hf.1.2.2.1⟩
